import Mathlib

/-!
Shallow embedding of the simplecache-go / gocache repository.

The repository contains two cache families:
* `cache[K,V]` (cache.go, generic) and its untyped twin (ttl.go): a dense
  entry slice `items` plus a `map[K]int` index `indices`, with lazy TTL
  expiry, swap-delete, a sweeping `DeleteExpired`, and a sharded wrapper
  (sharded.go) routed by the `djb33` hash.
* `GCache` (the gocache package): a `container/heap`-backed store `heap`
  with `entries []*entry` and `indices map[string]int`, whose background
  `gc` loop peeks `top()` (the last array slot) and removes it while it is
  expired.

Timestamps and durations are modelled as `Int` (Go int64 nanoseconds,
`time.Time.UnixNano`); overflow of int64 never matters for the claims at
hand.  Go maps are modelled as association lists with unique keys
(`mapFind` / `mapInsert` / `mapErase` mirror `m[k]`, `m[k] = v`,
`delete(m, k)`), since Go map iteration order is unobservable in the
modelled code.  Go string bytes are modelled as `List Nat`; uint32
arithmetic in `djb33` is `Nat` arithmetic taken `% 2^32`.
-/

section GoMap

variable {K : Type} [DecidableEq K]

/-- Model of Go map lookup `v, ok := m[k]` for a `map[K]int`. -/
def mapFind : List (K × Nat) → K → Option Nat
  | [], _ => none
  | p :: rest, k => if p.1 = k then some p.2 else mapFind rest k

/-- Model of Go map assignment `m[k] = v`: replace the binding in place or append. -/
def mapInsert : List (K × Nat) → K → Nat → List (K × Nat)
  | [], k, v => [(k, v)]
  | p :: rest, k, v => if p.1 = k then (k, v) :: rest else p :: mapInsert rest k v

/-- Model of Go `delete(m, k)`: remove the (unique) binding of `k`. -/
def mapErase : List (K × Nat) → K → List (K × Nat)
  | [], _ => []
  | p :: rest, k => if p.1 = k then rest else p :: mapErase rest k

/-- The keys of the association list are pairwise distinct, as in a real Go map. -/
def keysNodup (m : List (K × Nat)) : Prop := (m.map Prod.fst).Nodup

@[simp]
theorem mapFind_nil (k : K) : mapFind ([] : List (K × Nat)) k = none := rfl

theorem mapFind_cons (p : K × Nat) (m : List (K × Nat)) (k : K) :
    mapFind (p :: m) k = if p.1 = k then some p.2 else mapFind m k := rfl

theorem mapFind_mem {m : List (K × Nat)} {k : K} {v : Nat}
    (h : mapFind m k = some v) : (k, v) ∈ m := by
  induction m with
  | nil => simp at h
  | cons p rest ih =>
    rw [mapFind_cons] at h
    split at h
    · rename_i hpk
      cases h
      simp [← hpk]
    · exact List.mem_cons_of_mem _ (ih h)

theorem mapFind_eq_none_iff {m : List (K × Nat)} {k : K} :
    mapFind m k = none ↔ k ∉ m.map Prod.fst := by
  induction m with
  | nil => simp
  | cons p rest ih =>
    rw [mapFind_cons]
    by_cases hpk : p.1 = k <;> simp [hpk, ih, Ne.symm]

theorem mapFind_of_mem_nodup {m : List (K × Nat)} (hnd : keysNodup m)
    {k : K} {v : Nat} (h : (k, v) ∈ m) : mapFind m k = some v := by
  induction m with
  | nil => simp at h
  | cons p rest ih =>
    rcases List.mem_cons.mp h with h | h
    · rw [← h, mapFind_cons]; simp
    · rw [mapFind_cons]
      have hnd2 : keysNodup rest := (List.nodup_cons.mp hnd).2
      have hk : k ∈ rest.map Prod.fst := List.mem_map.mpr ⟨(k, v), h, rfl⟩
      have hne : p.1 ≠ k := by
        intro he
        exact (List.nodup_cons.mp hnd).1 (he ▸ hk)
      simp [hne, ih hnd2 h]

@[simp]
theorem mapFind_mapInsert_self (m : List (K × Nat)) (k : K) (v : Nat) :
    mapFind (mapInsert m k v) k = some v := by
  induction m with
  | nil => simp [mapInsert, mapFind_cons]
  | cons p rest ih =>
    rw [mapInsert]
    split
    · rw [mapFind_cons]; simp
    · rw [mapFind_cons]
      rename_i hpk
      simp [hpk, ih]

theorem mapFind_mapInsert_ne (m : List (K × Nat)) {k k' : K} (v : Nat)
    (h : k' ≠ k) : mapFind (mapInsert m k v) k' = mapFind m k' := by
  induction m with
  | nil => simp [mapInsert, mapFind_cons, Ne.symm h]
  | cons p rest ih =>
    rw [mapInsert]
    split
    · rename_i hpk
      rw [mapFind_cons, mapFind_cons]
      simp [Ne.symm h, hpk]
    · rw [mapFind_cons, mapFind_cons]
      split <;> simp [ih]

theorem mapFind_mapErase_self {m : List (K × Nat)} (hnd : keysNodup m) (k : K) :
    mapFind (mapErase m k) k = none := by
  induction m with
  | nil => simp [mapErase]
  | cons p rest ih =>
    rw [mapErase]
    split
    · rename_i hpk
      rw [mapFind_eq_none_iff]
      intro hk
      exact (List.nodup_cons.mp hnd).1 (hpk ▸ hk)
    · rename_i hpk
      rw [mapFind_cons]
      simp [hpk, ih (List.nodup_cons.mp hnd).2]

theorem mapFind_mapErase_ne (m : List (K × Nat)) {k k' : K} (h : k' ≠ k) :
    mapFind (mapErase m k) k' = mapFind m k' := by
  induction m with
  | nil => simp [mapErase]
  | cons p rest ih =>
    rw [mapErase]
    split
    · rename_i hpk
      rw [mapFind_cons]
      simp [hpk, Ne.symm h]
    · rw [mapFind_cons, mapFind_cons]
      split <;> simp [ih]

theorem keysNodup_nil : keysNodup ([] : List (K × Nat)) := List.nodup_nil

theorem map_fst_mapInsert (m : List (K × Nat)) (k : K) (v : Nat) :
    (mapInsert m k v).map Prod.fst =
      if mapFind m k = none then m.map Prod.fst ++ [k] else m.map Prod.fst := by
  induction m with
  | nil => simp [mapInsert]
  | cons p rest ih =>
    rw [mapInsert, mapFind_cons]
    by_cases hpk : p.1 = k
    · simp [hpk]
    · simp only [hpk, if_false, List.map_cons, ih]
      split <;> simp [hpk]

theorem keysNodup_mapInsert (m : List (K × Nat)) (k : K) (v : Nat)
    (hnd : keysNodup m) : keysNodup (mapInsert m k v) := by
  unfold keysNodup
  rw [map_fst_mapInsert]
  split
  · rename_i hfind
    have hk : k ∉ m.map Prod.fst := mapFind_eq_none_iff.mp hfind
    rw [List.nodup_append]
    refine ⟨hnd, List.nodup_singleton k, ?_⟩
    intro a ha hamem
    rw [List.mem_singleton] at hamem
    exact hk (hamem ▸ ha)
  · exact hnd

theorem mapErase_sublist (m : List (K × Nat)) (k : K) :
    List.Sublist (mapErase m k) m := by
  induction m with
  | nil => simp [mapErase]
  | cons p rest ih =>
    rw [mapErase]
    split
    · exact List.sublist_cons_self _ _
    · exact List.Sublist.cons₂ _ ih

theorem keysNodup_mapErase (m : List (K × Nat)) (k : K)
    (hnd : keysNodup m) : keysNodup (mapErase m k) :=
  hnd.sublist ((mapErase_sublist m k).map Prod.fst)

theorem length_mapInsert_found (m : List (K × Nat)) (k : K) (v : Nat)
    (h : mapFind m k ≠ none) : (mapInsert m k v).length = m.length := by
  induction m with
  | nil => simp at h
  | cons p rest ih =>
    rw [mapInsert]
    rw [mapFind_cons] at h
    split
    · simp
    · rename_i hpk
      simp [hpk] at h
      simp [ih h]

theorem length_mapInsert_new (m : List (K × Nat)) (k : K) (v : Nat)
    (h : mapFind m k = none) : (mapInsert m k v).length = m.length + 1 := by
  induction m with
  | nil => simp [mapInsert]
  | cons p rest ih =>
    rw [mapInsert]
    rw [mapFind_cons] at h
    split at h
    · simp at h
    · rename_i hpk
      simp [hpk, ih h]

theorem length_mapErase_found (m : List (K × Nat)) (k : K)
    (h : mapFind m k ≠ none) : (mapErase m k).length + 1 = m.length := by
  induction m with
  | nil => simp at h
  | cons p rest ih =>
    rw [mapErase]
    rw [mapFind_cons] at h
    split
    · simp
    · rename_i hpk
      simp [hpk] at h
      simp [ih h]

end GoMap

section ListSwap

variable {α : Type}

/-- Go parallel-assignment swap `l[i], l[j] = l[j], l[i]` on a slice (no-op when
out of bounds, which in Go would panic; all modelled calls are in bounds). -/
def listSwap (l : List α) (i j : Nat) : List α :=
  match l[i]?, l[j]? with
  | some a, some b => (l.set i b).set j a
  | _, _ => l

@[simp]
theorem length_listSwap (l : List α) (i j : Nat) :
    (listSwap l i j).length = l.length := by
  unfold listSwap
  split <;> simp

theorem getElem?_listSwap (l : List α) (i j n : Nat)
    (hi : i < l.length) (hj : j < l.length) :
    (listSwap l i j)[n]? = if n = j then l[i]? else if n = i then l[j]? else l[n]? := by
  have ha : l[i]? = some (l.get ⟨i, hi⟩) := List.getElem?_eq_getElem hi
  have hb : l[j]? = some (l.get ⟨j, hj⟩) := List.getElem?_eq_getElem hj
  unfold listSwap
  rw [ha, hb]
  by_cases hnj : n = j
  · subst hnj
    rw [List.getElem?_set_self (by simpa using hj), if_pos rfl]
  · rw [List.getElem?_set_ne (fun h => hnj h.symm), if_neg hnj]
    by_cases hni : n = i
    · subst hni
      rw [List.getElem?_set_self hi, if_pos rfl]
    · rw [List.getElem?_set_ne (fun h => hni h.symm), if_neg hni]

theorem listSwap_self (l : List α) (i : Nat) : listSwap l i i = l := by
  by_cases hi : i < l.length
  · refine List.ext_getElem? (fun n => ?_)
    rw [getElem?_listSwap l i i n hi hi]
    by_cases hni : n = i
    · subst hni; simp
    · simp [hni]
  · unfold listSwap
    rw [List.getElem?_eq_none (Nat.le_of_not_lt hi)]

end ListSwap

section IndexInvariant

variable {K : Type} [DecidableEq K]

/-- Key-to-position correspondence invariant shared by the Indexed Entry Table
(`items`/`indices`) and the Priority Expiry Structure (`entries`/`indices`):
the index maps `k` to `i` exactly when the entry stored at position `i` has key
`k`, the index has one binding per stored entry, and keys are unique.
`ks` is the list of keys of the stored entries, in storage order. -/
def idxInv (ks : List K) (ix : List (K × Nat)) : Prop :=
  keysNodup ix ∧ ix.length = ks.length ∧
  (∀ p ∈ ix, ks[p.2]? = some p.1) ∧
  (∀ i : Fin ks.length, mapFind ix (ks.get i) = some i.val)

theorem idxInv_nil : idxInv ([] : List K) [] := by
  refine ⟨keysNodup_nil, rfl, ?_, ?_⟩
  · intro p hp; simp at hp
  · intro i; exact absurd i.isLt (by simp)

theorem idxInv.find_some {ks : List K} {ix : List (K × Nat)} (h : idxInv ks ix)
    {k : K} {i : Nat} (hf : mapFind ix k = some i) : ks[i]? = some k :=
  h.2.2.1 (k, i) (mapFind_mem hf)

theorem idxInv.get_find {ks : List K} {ix : List (K × Nat)} (h : idxInv ks ix)
    {k : K} {i : Nat} (hg : ks[i]? = some k) : mapFind ix k = some i := by
  rcases List.getElem?_eq_some_iff.mp hg with ⟨hi, hk⟩
  have := h.2.2.2 ⟨i, hi⟩
  rw [List.get_eq_getElem] at this
  rw [hk] at this
  exact this

theorem idxInv_intro {ks : List K} {ix : List (K × Nat)}
    (hnd : keysNodup ix) (hlen : ix.length = ks.length)
    (hiff : ∀ k i, mapFind ix k = some i ↔ ks[i]? = some k) : idxInv ks ix := by
  refine ⟨hnd, hlen, ?_, ?_⟩
  · intro p hp
    exact (hiff p.1 p.2).mp (mapFind_of_mem_nodup hnd (by cases p; exact hp))
  · intro i
    exact (hiff _ i.val).mpr (by rw [List.get_eq_getElem]; exact List.getElem?_eq_getElem i.isLt)

theorem mapErase_mapInsert_self (m : List (K × Nat)) (k : K) (v : Nat) :
    mapErase (mapInsert m k v) k = mapErase m k := by
  induction m with
  | nil => simp [mapInsert, mapErase]
  | cons p rest ih =>
    rw [mapInsert]
    by_cases hpk : p.1 = k
    · rw [if_pos hpk, mapErase, if_pos rfl, mapErase, if_pos hpk]
    · rw [if_neg hpk, mapErase, if_neg hpk, mapErase, if_neg hpk, ih]

/-- Swapping two stored entries and re-pointing the index at both moved keys —
the `Swap` of the heap, and the first half of every swap-delete — preserves the
correspondence invariant.  `ki`/`kj` are the keys stored at `i`/`j` before the
swap; the index updates use the post-swap keys exactly as the source does. -/
theorem idxInv_swap {ks : List K} {ix : List (K × Nat)} {i j : Nat} {ki kj : K}
    (h : idxInv ks ix) (hki : ks[i]? = some ki) (hkj : ks[j]? = some kj) :
    idxInv (listSwap ks i j) (mapInsert (mapInsert ix kj i) ki j) := by
  have hi : i < ks.length := (List.getElem?_eq_some_iff.mp hki).1
  have hj : j < ks.length := (List.getElem?_eq_some_iff.mp hkj).1
  have hfi : mapFind ix ki = some i := h.get_find hki
  have hfj : mapFind ix kj = some j := h.get_find hkj
  by_cases hij : i = j
  · subst hij
    have hkij : ki = kj := by rw [hki] at hkj; exact Option.some_inj.mp hkj
    subst hkij
    rw [listSwap_self]
    refine idxInv_intro ?_ ?_ ?_
    · exact keysNodup_mapInsert _ _ _ (keysNodup_mapInsert _ _ _ h.1)
    · rw [length_mapInsert_found _ _ _ (by rw [mapFind_mapInsert_self]; simp),
        length_mapInsert_found _ _ _ (by rw [hfi]; simp)]
      exact h.2.1
    · intro k n
      by_cases hk : k = ki
      · subst hk
        rw [mapFind_mapInsert_self]
        constructor
        · intro he
          cases he
          exact hki
        · intro he
          have := h.get_find he
          rw [hfi] at this
          cases this
          rfl
      · rw [mapFind_mapInsert_ne _ _ hk, mapFind_mapInsert_ne _ _ hk]
        exact ⟨fun hf => h.find_some hf, fun hg => h.get_find hg⟩
  · have hne : ki ≠ kj := by
      intro he
      rw [he, hfj] at hfi
      exact hij (Option.some_inj.mp hfi).symm
    refine idxInv_intro ?_ ?_ ?_
    · exact keysNodup_mapInsert _ _ _ (keysNodup_mapInsert _ _ _ h.1)
    · rw [length_mapInsert_found _ _ _ (by rw [mapFind_mapInsert_ne _ _ hne, hfi]; simp),
        length_mapInsert_found _ _ _ (by rw [hfj]; simp), h.2.1, length_listSwap]
    · intro k n
      rw [getElem?_listSwap ks i j n hi hj]
      by_cases hk : k = ki
      · subst hk
        rw [mapFind_mapInsert_self]
        constructor
        · intro he
          cases he
          rw [if_pos rfl]
          exact hki
        · intro he
          by_cases hnj : n = j
          · cases hnj; rfl
          · rw [if_neg hnj] at he
            by_cases hni : n = i
            · rw [if_pos hni, hkj] at he
              exact absurd (Option.some_inj.mp he).symm hne
            · rw [if_neg hni] at he
              have := h.get_find he
              rw [hfi] at this
              exact absurd (Option.some_inj.mp this).symm hni
      · rw [mapFind_mapInsert_ne _ _ hk]
        by_cases hk2 : k = kj
        · subst hk2
          rw [mapFind_mapInsert_self]
          constructor
          · intro he
            cases he
            rw [if_neg hij, if_pos rfl]
            exact hkj
          · intro he
            by_cases hnj : n = j
            · rw [if_pos hnj, hki] at he
              exact absurd (Option.some_inj.mp he).symm hk
            · rw [if_neg hnj] at he
              by_cases hni : n = i
              · cases hni; rfl
              · rw [if_neg hni] at he
                have := h.get_find he
                rw [hfj] at this
                exact absurd (Option.some_inj.mp this).symm hnj
        · rw [mapFind_mapInsert_ne _ _ hk2]
          constructor
          · intro he
            have hg := h.find_some he
            by_cases hnj : n = j
            · subst hnj
              rw [hg] at hkj
              exact absurd (Option.some_inj.mp hkj) hk2
            · by_cases hni : n = i
              · subst hni
                rw [hg] at hki
                exact absurd (Option.some_inj.mp hki) hk
              · rw [if_neg hnj, if_neg hni]
                exact hg
          · intro he
            by_cases hnj : n = j
            · rw [if_pos hnj, hki] at he
              exact absurd (Option.some_inj.mp he).symm hk
            · rw [if_neg hnj] at he
              by_cases hni : n = i
              · rw [if_pos hni, hkj] at he
                exact absurd (Option.some_inj.mp he).symm hk2
              · rw [if_neg hni] at he
                exact h.get_find he

/-- Appending a fresh entry at the end and indexing its key at the old length —
the table's `set` append branch, and the heap's `Push` — preserves the
correspondence invariant provided the key is not already present. -/
theorem idxInv_append {ks : List K} {ix : List (K × Nat)} {k : K}
    (h : idxInv ks ix) (hnew : mapFind ix k = none) :
    idxInv (ks ++ [k]) (mapInsert ix k ks.length) := by
  refine idxInv_intro ?_ ?_ ?_
  · exact keysNodup_mapInsert _ _ _ h.1
  · rw [length_mapInsert_new _ _ _ hnew, h.2.1, List.length_append, List.length_singleton]
  · intro k2 n
    by_cases hk : k2 = k
    · subst hk
      rw [mapFind_mapInsert_self]
      constructor
      · intro he
        cases he
        exact List.getElem?_concat_length ks k2
      · intro he
        by_cases hn : n < ks.length
        · rw [List.getElem?_append_left hn] at he
          rw [h.get_find he] at hnew
          exact absurd hnew (by simp)
        · by_cases hn2 : n = ks.length
          · rw [hn2]
          · rw [List.getElem?_append_right (Nat.le_of_not_lt hn)] at he
            have : n - ks.length ≥ 1 := by omega
            rw [List.getElem?_eq_none (by simpa using this)] at he
            cases he
    · rw [mapFind_mapInsert_ne _ _ hk]
      constructor
      · intro he
        have hg := h.find_some he
        have hn : n < ks.length := (List.getElem?_eq_some_iff.mp hg).1
        rw [List.getElem?_append_left hn]
        exact hg
      · intro he
        by_cases hn : n < ks.length
        · rw [List.getElem?_append_left hn] at he
          exact h.get_find he
        · rw [List.getElem?_append_right (Nat.le_of_not_lt hn)] at he
          rcases List.getElem?_eq_some_iff.mp he with ⟨hlt, hv⟩
          rw [List.length_singleton] at hlt
          interval_cases h2 : n - ks.length
          · simp at hv
            exact absurd hv.symm hk
  
/-- Removing the last stored entry and erasing its key — the tail of
`container/heap`'s `Pop` and the degenerate (`idx = n`) swap-delete —
preserves the correspondence invariant. -/
theorem idxInv_removeLast {ks : List K} {ix : List (K × Nat)} {k : K} {n : Nat}
    (h : idxInv ks ix) (hn : n = ks.length - 1) (hk : ks[n]? = some k) :
    idxInv (ks.take n) (mapErase ix k) := by
  have hlt : n < ks.length := (List.getElem?_eq_some_iff.mp hk).1
  have hfk : mapFind ix k = some n := h.get_find hk
  refine idxInv_intro ?_ ?_ ?_
  · exact keysNodup_mapErase _ _ h.1
  · have := length_mapErase_found ix k (by rw [hfk]; simp)
    have h21 := h.2.1
    rw [List.length_take]
    omega
  · intro k2 i
    by_cases hk2 : k2 = k
    · subst hk2
      rw [mapFind_mapErase_self h.1]
      constructor
      · intro he; cases he
      · intro he
        by_cases hi : i < n
        · rw [List.getElem?_take_of_lt hi] at he
          have := h.get_find he
          rw [hfk] at this
          have := Option.some_inj.mp this
          omega
        · rw [List.getElem?_eq_none (by rw [List.length_take]; omega)] at he
          cases he
    · rw [mapFind_mapErase_ne _ hk2]
      constructor
      · intro he
        have hg := h.find_some he
        have hilt : i < ks.length := (List.getElem?_eq_some_iff.mp hg).1
        have hine : i ≠ n := by
          intro hin
          rw [hin, hk] at hg
          exact hk2 (Option.some_inj.mp hg).symm
        rw [List.getElem?_take_of_lt (by omega)]
        exact hg
      · intro he
        by_cases hi : i < n
        · rw [List.getElem?_take_of_lt hi] at he
          exact h.get_find he
        · rw [List.getElem?_eq_none (by rw [List.length_take]; omega)] at he
          cases he

/-- The full swap-delete dance of `cache.delete` and `heap.remove` (before the
final `Fix`): swap position `m` with the last position `n`, re-point the index
of the moved key at `m`, truncate, and erase the removed key.  Preserves the
correspondence invariant. -/
theorem idxInv_delete {ks : List K} {ix : List (K × Nat)} {k klast : K} {m n : Nat}
    (h : idxInv ks ix) (hfind : mapFind ix k = some m) (hn : n = ks.length - 1)
    (hlast : ks[n]? = some klast) :
    idxInv ((listSwap ks m n).take n) (mapErase (mapInsert ix klast m) k) := by
  have hkm : ks[m]? = some k := h.find_some hfind
  have hmlt : m < ks.length := (List.getElem?_eq_some_iff.mp hkm).1
  have hnlt : n < ks.length := (List.getElem?_eq_some_iff.mp hlast).1
  by_cases hmn : m = n
  · subst hmn
    have : k = klast := by
      rw [hkm] at hlast
      exact Option.some_inj.mp hlast
    subst this
    rw [listSwap_self, mapErase_mapInsert_self]
    exact idxInv_removeLast h hn hkm
  · have hswap := idxInv_swap h hkm hlast
    have hlast2 : (listSwap ks m n)[n]? = some k := by
      rw [getElem?_listSwap ks m n n hmlt hnlt, if_pos rfl]
      exact hkm
    have := idxInv_removeLast hswap (by rw [length_listSwap]; exact hn) hlast2
    have hee : mapErase (mapInsert (mapInsert ix klast m) k n) k
        = mapErase (mapInsert ix klast m) k := mapErase_mapInsert_self _ _ _
    rw [hee] at this
    exact this

end IndexInvariant

section SwapMapLemmas

variable {α β : Type}

theorem map_listSwap (f : α → β) (l : List α) (i j : Nat) :
    (listSwap l i j).map f = listSwap (l.map f) i j := by
  unfold listSwap
  cases hli : l[i]? <;> cases hlj : l[j]? <;>
    simp [List.getElem?_map, hli, hlj, List.map_set]

theorem take_listSwap (l : List α) (i j s : Nat)
    (hi : i < s) (hj : j < s) (hs : s ≤ l.length) :
    (listSwap l i j).take s = listSwap (l.take s) i j := by
  have hi2 : i < l.length := Nat.lt_of_lt_of_le hi hs
  have hj2 : j < l.length := Nat.lt_of_lt_of_le hj hs
  have hlen : (l.take s).length = s := by rw [List.length_take]; omega
  refine List.ext_getElem? (fun n => ?_)
  by_cases hn : n < s
  · rw [List.getElem?_take_of_lt hn, getElem?_listSwap l i j n hi2 hj2,
      getElem?_listSwap (l.take s) i j n (by omega) (by omega)]
    split
    · exact (List.getElem?_take_of_lt hi).symm
    · split
      · exact (List.getElem?_take_of_lt hj).symm
      · exact (List.getElem?_take_of_lt hn).symm
  · rw [List.getElem?_eq_none (by rw [List.length_take, length_listSwap]; omega),
      List.getElem?_eq_none (by rw [length_listSwap, List.length_take]; omega)]

theorem set_of_getElem?_eq (l : List α) (i : Nat) (a : α)
    (h : l[i]? = some a) : l.set i a = l := by
  refine List.ext_getElem? (fun n => ?_)
  by_cases hn : n = i
  · subst hn
    rw [List.getElem?_set_self (List.getElem?_eq_some_iff.mp h).1, h]
  · rw [List.getElem?_set_ne (fun he => hn he.symm)]

end SwapMapLemmas

namespace simplecache

/-- `DefaultExpiration time.Duration = 0`: substitute the table default. -/
def DefaultExpiration : Int := 0

/-- `NoExpiration time.Duration = -1`: store `Expiration = 0`, never expires. -/
def NoExpiration : Int := -1

/-- `entry[K comparable, V any]` of cache.go: one stored item.  `Expiration` is
an absolute `UnixNano` timestamp; `0` means "never expires".  The per-entry
`sync.Mutex` has no sequential content and is omitted. -/
structure entry (K V : Type) where
  key : K
  value : V
  Expiration : Int
deriving DecidableEq

/-- `cache[K comparable, V any]` of cache.go: dense entry slice plus key→index
map.  `onEvicted` records whether an eviction callback is registered (the
callback's code itself is external); the `stop` channel and `sync.RWMutex`
carry no sequential state and are omitted. -/
structure cache (K V : Type) where
  defaultExpiration : Int
  items : List (entry K V)
  indices : List (K × Nat)
  onEvicted : Bool
deriving DecidableEq

variable {K V : Type} [DecidableEq K]

/-- `Expired()` of an entry, and the inlined test used everywhere:
`Expiration > 0 && now > Expiration`. -/
def entry.ExpiredAt (e : entry K V) (now : Int) : Prop :=
  e.Expiration > 0 ∧ now > e.Expiration

instance (e : entry K V) (now : Int) : Decidable (e.ExpiredAt now) :=
  inferInstanceAs (Decidable (And _ _))

/-- `cache.set` (and the identical inlined body of `cache.Set`): upsert.
`now` stands for `time.Now().UnixNano()`; `d` is the requested TTL in
nanoseconds. -/
def cache.set (c : cache K V) (now : Int) (k : K) (x : V) (d : Int) : cache K V :=
  let d2 := if d = DefaultExpiration then c.defaultExpiration else d
  let e := if d2 > 0 then now + d2 else 0
  match mapFind c.indices k with
  | some idx => { c with items := c.items.set idx ⟨k, x, e⟩ }
  | none =>
      { c with items := c.items ++ [⟨k, x, e⟩],
               indices := mapInsert c.indices k c.items.length }

/-- `cache.Set`: public upsert; body identical to `set` under the write lock. -/
def cache.Set (c : cache K V) (now : Int) (k : K) (x : V) (d : Int) : cache K V :=
  cache.set c now k x d

/-- `cache.get`: internal lookup, `(value, found)`.  `none` along the index
path models the zero value returned on a miss; an index entry pointing out of
range (impossible under `tblInv`, a panic in Go) also yields not-found. -/
def cache.get (c : cache K V) (now : Int) (k : K) : Option V × Bool :=
  match mapFind c.indices k with
  | none => (none, false)
  | some idx =>
    match c.items[idx]? with
    | none => (none, false)
    | some item =>
      if item.Expiration > 0 ∧ now > item.Expiration then (none, false)
      else (some item.value, true)

/-- `cache.Get`: public lookup; same logic as `get` under the read lock. -/
def cache.Get (c : cache K V) (now : Int) (k : K) : Option V × Bool :=
  match mapFind c.indices k with
  | none => (none, false)
  | some idx =>
    match c.items[idx]? with
    | none => (none, false)
    | some item =>
      if item.Expiration > 0 ∧ now > item.Expiration then (none, false)
      else (some item.value, true)

/-- `cache.Add`: upsert-if-absent.  Second component `true` models the
`Item ... alread exists` error being returned (state unchanged). -/
def cache.Add (c : cache K V) (now : Int) (k : K) (x : V) (d : Int) :
    cache K V × Bool :=
  if (cache.get c now k).2 then (c, true) else (cache.set c now k x d, false)

/-- `cache.Contains`: membership test that ignores expiration. -/
def cache.Contains (c : cache K V) (k : K) : Bool :=
  (mapFind c.indices k).isSome

/-- `cache.GetAndRenewal`: returns `(state, value, ok)`.  On a hit the entry's
expiry is extended by `defaultExpiration / 3` whenever `Expiration > 0` and
`Expiration - now <= defaultExpiration / 3`; Go's `int64` division truncates
toward zero, hence `Int.tdiv`.  Note no expiry check guards the hit itself. -/
def cache.GetAndRenewal (c : cache K V) (now : Int) (k : K) :
    cache K V × Option V × Bool :=
  match mapFind c.indices k with
  | none => (c, none, false)
  | some idx =>
    match c.items[idx]? with
    | none => (c, none, false)
    | some item =>
      let exp := Int.tdiv c.defaultExpiration 3
      let item2 :=
        if item.Expiration > 0 ∧ item.Expiration - now ≤ exp then
          { item with Expiration := item.Expiration + exp }
        else item
      ({ c with items := c.items.set idx item2 }, some item2.value, true)

/-- Core of `cache.delete`, shared with the `DeleteExpired` loop: operates on
the full backing array `B` (the swap mutates it in place) and the index.
Returns the mutated backing, the new index, `some n` (the truncated logical
length) when the key was found, and the evicted value when a callback is
registered.  `n := len(c.indices) - 1` exactly as in the source. -/
def cache.deleteCore (B : List (entry K V)) (ix : List (K × Nat)) (ev : Bool)
    (k : K) : List (entry K V) × List (K × Nat) × Option Nat × Option V :=
  match mapFind ix k with
  | none => (B, ix, none, none)
  | some idx =>
    let n := ix.length - 1
    let B2 := listSwap B idx n
    match B2[idx]?, B2[n]? with
    | some moved, some removed =>
      (B2, mapErase (mapInsert ix moved.key idx) k, some n,
        if ev then some removed.value else none)
    | _, _ => (B, ix, none, none)

/-- `cache.delete`: O(1) swap-delete.  Returns `(state, evicted value)`;
the value is `some` exactly when an eviction callback is registered and the
key was present (the source's `(v, true)` case). -/
def cache.delete (c : cache K V) (k : K) : cache K V × Option V :=
  match cache.deleteCore c.items c.indices c.onEvicted k with
  | (B2, ix2, some n, v) => ({ c with items := B2.take n, indices := ix2 }, v)
  | (_, _, none, _) => (c, none)

/-- `cache.Delete`: delete under the lock, then invoke the callback outside it.
The second component lists the callback invocations `(k, v)` (at most one). -/
def cache.Delete (c : cache K V) (k : K) : cache K V × List (K × V) :=
  match cache.delete c k with
  | (c2, some v) => (c2, [(k, v)])
  | (c2, none) => (c2, [])

/-- One iteration of the `for _, v := range c.items` loop of `DeleteExpired`:
`i` indexes the ORIGINAL slice header (Go's `range` snapshot), whose backing
array is shared with — and mutated by — the swap-deletes, so `B[i]?` reads the
current backing.  State: `(backing, logical length, index, callback queue)`. -/
def cache.sweepStep (now : Int) (ev : Bool)
    (st : List (entry K V) × Nat × List (K × Nat) × List (K × V)) (i : Nat) :
    List (entry K V) × Nat × List (K × Nat) × List (K × V) :=
  let (B, size, ix, acc) := st
  match B[i]? with
  | none => (B, size, ix, acc)
  | some v =>
    if v.Expiration > 0 ∧ now > v.Expiration then
      match cache.deleteCore B ix ev v.key with
      | (B2, ix2, some n, evv) =>
        (B2, n, ix2, if evv.isSome then acc ++ [(v.key, v.value)] else acc)
      | (_, _, none, _) => (B, size, ix, acc)
    else (B, size, ix, acc)

/-- `cache.DeleteExpired`: one pass over the range snapshot (indices
`0 .. len-1` of the original `c.items`), swap-deleting expired entries; the
collected `(k, v)` pairs model the callbacks invoked after the lock is
released, in removal order. -/
def cache.DeleteExpired (c : cache K V) (now : Int) : cache K V × List (K × V) :=
  let L := c.items.length
  match (List.range L).foldl (cache.sweepStep now c.onEvicted)
      (c.items, L, c.indices, []) with
  | (B, size, ix, acc) => ({ c with items := B.take size, indices := ix }, acc)

/-- The `Keys()` loop of the generic cache.go: collect keys of entries that are
not expired at `now`. -/
def keysOf (now : Int) : List (entry K V) → List K
  | [] => []
  | v :: rest =>
    if v.Expiration > 0 ∧ now > v.Expiration then keysOf now rest
    else v.key :: keysOf now rest

/-- `cache.Keys`: liveness-filtered key list. -/
def cache.Keys (c : cache K V) (now : Int) : List K :=
  keysOf now c.items

/-- `cache.Len`: number of physically stored items, expired or not. -/
def cache.Len (c : cache K V) : Nat :=
  c.items.length

/-- `cache.Purge`: drop all entries and reset the index map. -/
def cache.Purge (c : cache K V) : cache K V :=
  { c with items := [], indices := [] }

/-- The untyped ttl.go variant's `Keys()` loop: `for k, v := range c.items`
ranges over a SLICE, so `k` is the position, and the loop appends `k` — the
positions of the unexpired entries, not their keys. -/
def ttlKeysAux (now : Int) : List (entry K V) → Nat → List Nat
  | [], _ => []
  | v :: rest, k =>
    if v.Expiration > 0 ∧ now > v.Expiration then ttlKeysAux now rest (k + 1)
    else k :: ttlKeysAux now rest (k + 1)

/-- ttl.go `cache.Keys`. -/
def ttlKeys (items : List (entry K V)) (now : Int) : List Nat :=
  ttlKeysAux now items 0

/-- `newCache`: `de == 0` is mapped to `-1` (never expire by default). -/
def newCache (K V : Type) (initcap : Nat) (de : Int) : cache K V :=
  { defaultExpiration := if de = 0 then -1 else de,
    items := [],
    indices := [],
    onEvicted := false }

/-- The outer `Cache` handle: `janitorRunning` records whether
`newCacheWithJanitor` started the background `run` goroutine. -/
structure Cache (K V : Type) where
  inner : cache K V
  janitorRunning : Bool

/-- `newCacheWithJanitor`: starts the periodic sweep goroutine iff `ci > 0`. -/
def newCacheWithJanitor (K V : Type) (initcap : Nat) (de ci : Int) : Cache K V :=
  { inner := newCache K V initcap de, janitorRunning := decide (ci > 0) }

/-- `New`: public constructor. -/
def New (K V : Type) (initcap : Nat) (defaultExpiration cleanupInterval : Int) :
    Cache K V :=
  newCacheWithJanitor K V initcap defaultExpiration cleanupInterval

/-- The key↔position correspondence invariant instantiated to the table. -/
def tblInv (c : cache K V) : Prop :=
  idxInv (c.items.map entry.key) c.indices

instance (c : cache K V) : Decidable (tblInv c) := by
  unfold tblInv idxInv keysNodup
  exact inferInstance

end simplecache

namespace gocache

/-- `entry` of heap.go: `expired` is the absolute expiry instant (modelled as
`Int` nanoseconds), `data` the stored payload, `key` the string key. -/
structure hentry where
  expired : Int
  data : Int
  key : String
deriving DecidableEq

/-- `heap` of heap.go: entry slice maintained by `container/heap` plus the
key→position map. -/
structure heap where
  entries : List hentry
  indices : List (String × Nat)
deriving DecidableEq

/-- `heap.Less(i, j)`: `entries[i].expired.After(entries[j].expired)` — `i`
sorts before `j` when `i` expires strictly LATER.  Out-of-range reads (a Go
panic) yield `false`. -/
def heap.Less (h : heap) (i j : Nat) : Bool :=
  match h.entries[i]?, h.entries[j]? with
  | some a, some b => decide (b.expired < a.expired)
  | _, _ => false

/-- Key stored at position `i` (empty string stands for the nil dereference a
Go out-of-range read would panic on; all verified paths are in range). -/
def heap.keyAt (h : heap) (i : Nat) : String :=
  ((h.entries[i]?).map hentry.key).getD ""

/-- `heap.Swap(i, j)`: swap the two entries and re-point the index map at both
moved keys (post-swap keys, as in the source). -/
def heap.Swap (h : heap) (i j : Nat) : heap :=
  let E := listSwap h.entries i j
  { entries := E,
    indices :=
      mapInsert (mapInsert h.indices (((E[i]?).map hentry.key).getD "") i)
        (((E[j]?).map hentry.key).getD "") j }

/-- `heap.Push(x)` (the `heap.Interface` method): append and index at the old
length. -/
def heap.PushRaw (h : heap) (e : hentry) : heap :=
  { entries := h.entries ++ [e],
    indices := mapInsert h.indices e.key h.entries.length }

/-- `container/heap`'s `up(h, j)`: sift the entry at `j` toward the root while
it is `Less` than its parent `(j-1)/2`. -/
def heap.up (h : heap) (j : Nat) : heap :=
  if hc : (j - 1) / 2 = j ∨ ¬ h.Less j ((j - 1) / 2) then h
  else
    heap.up (h.Swap ((j - 1) / 2) j) ((j - 1) / 2)
termination_by j
decreasing_by
  have hij : (j - 1) / 2 ≠ j := (not_or.mp hc).1
  omega

/-- `container/heap`'s `down(h, i0, n)` loop, returning the final position
(the Go function returns `i > i0`; `heap.down` below derives it).  The `j1 < 0`
int-overflow guard of the source cannot fire for `Nat` sizes. -/
def heap.downAux (h : heap) (i n : Nat) : heap × Nat :=
  if hj : n ≤ 2 * i + 1 then (h, i)
  else
    let j1 := 2 * i + 1
    let j := if 2 * i + 2 < n ∧ h.Less (2 * i + 2) j1 then 2 * i + 2 else j1
    if ¬ h.Less j i then (h, i)
    else heap.downAux (h.Swap i j) j n
termination_by n - i
decreasing_by
  split <;> omega

/-- `down(h, i0, n)`: returns the heap and whether the entry moved. -/
def heap.down (h : heap) (i n : Nat) : heap × Bool :=
  let r := heap.downAux h i n
  (r.1, decide (i < r.2))

/-- `container/heap`'s `Fix(h, i)`: `if !down(h, i, h.Len()) { up(h, i) }`. -/
def heap.Fix (h : heap) (i : Nat) : heap :=
  let r := heap.down h i h.entries.length
  if r.2 then r.1 else r.1.up i

/-- `container/heap`'s `Push`: `h.Push(x); up(h, h.Len()-1)`. -/
def heap.cheapPush (h : heap) (e : hentry) : heap :=
  (h.PushRaw e).up h.entries.length

/-- `container/heap`'s `Pop` composed with `heap.Pop` of heap.go:
`Swap(0, n); down(0, n); o := entries[n]; entries = entries[:n];
delete(indices, o.key)`.  Returns the popped entry; popping an empty heap
(a Go panic) is modelled as `none` with the state unchanged. -/
def heap.cheapPop (h : heap) : heap × Option hentry :=
  match h.entries.length with
  | 0 => (h, none)
  | Nat.succ n =>
    let h1 := h.Swap 0 n
    let h2 := (heap.downAux h1 0 n).1
    match h2.entries[n]? with
    | some o =>
      ({ entries := h2.entries.take n, indices := mapErase h2.indices o.key }, some o)
    | none => (h, none)

/-- `heap.remove(key)` of heap.go: index-guided swap-to-end, truncate, erase,
then `Fix` at the vacated position when it was not the last. -/
def heap.remove (h : heap) (key : String) : heap :=
  match mapFind h.indices key with
  | none => h
  | some m =>
    let n := h.entries.length - 1
    let E := listSwap h.entries m n
    let ix1 := mapInsert h.indices (((E[m]?).map hentry.key).getD "") m
    let h2 : heap := { entries := E.take n, indices := mapErase ix1 key }
    if m ≠ n then h2.Fix m else h2

/-- `heap.update(item)`: `Fix` at the item's indexed position; a missing key
reads the map's zero value `0`, exactly as Go does. -/
def heap.update (h : heap) (key : String) : heap :=
  h.Fix ((mapFind h.indices key).getD 0)

/-- `heap.get(key)` of heap.go: `h.entries[h.indices[key]]`.  An absent key
reads the map's zero value `0`; indexing out of range (the empty heap) is a Go
panic, modelled as `none`. -/
def heap.get (h : heap) (key : String) : Option hentry :=
  h.entries[(mapFind h.indices key).getD 0]?

/-- `heap.top()` of heap.go: `h.entries[len-1]` — the LAST array slot, not the
root.  `GCache.Top` guards `Len() <= 0` and returns nil, hence `Option`. -/
def heap.Top (h : heap) : Option hentry :=
  if h.entries.length ≤ 0 then none else h.entries[h.entries.length - 1]?

/-- `GCache.Add(key, x)`: pushes a NEW entry expiring at `now + maxLifeTime`
with no existing-key check. -/
def GCacheAdd (h : heap) (now maxLifeTime : Int) (key : String) (x : Int) : heap :=
  h.cheapPush { expired := now + maxLifeTime, data := x, key := key }

/-- One timer tick of `GCache.gc`: repeatedly peek `Top()` and remove it while
it is not strictly after `now`.  The source loop has no iteration bound (a
corrupted index can make it spin forever); `fuel` bounds the modelled
iteration and is instantiated with the entry count, which the loop never
exceeds on states satisfying the invariant. -/
def gcTick : Nat → heap → Int → heap
  | 0, h, _ => h
  | Nat.succ fuel, h, now =>
    match h.Top with
    | none => h
    | some top =>
      if now < top.expired then h
      else gcTick fuel (h.remove top.key) now

/-- The key↔position correspondence invariant instantiated to the heap. -/
def heapInv (h : heap) : Prop :=
  idxInv (h.entries.map hentry.key) h.indices

instance (h : heap) : Decidable (heapInv h) := by
  unfold heapInv idxInv keysNodup
  exact inferInstance

end gocache

namespace simplecache

/-- `2^32`: modulus of Go `uint32` arithmetic. -/
def M32 : Nat := 4294967296

/-- One byte-fold of `djb33`: `d = (d*33) ^ uint32(b)` in `uint32` arithmetic.
Keys are byte lists (each element < 256 in Go); the `% M32` on `b` is the
`uint32` conversion. -/
def djbStep (d b : Nat) : Nat := ((d * 33) % M32) ^^^ (b % M32)

/-- The 4-byte unrolled stride loop of `djb33`: `for i < l-4 { ...; i += 4 }`.
Returns the accumulator and the final loop counter. -/
def djb33Loop (k : List Nat) (l : Nat) (d i : Nat) : Nat × Nat :=
  if i < l - 4 then
    djb33Loop k l
      (djbStep (djbStep (djbStep (djbStep d (k.getD i 0)) (k.getD (i + 1) 0))
        (k.getD (i + 2) 0)) (k.getD (i + 3) 0)) (i + 4)
  else (d, i)
termination_by l - i
decreasing_by omega

/-- The tail-handling `switch l - i` of `djb33`.  Note that `case 1` folds
nothing and `case n` folds `n - 1` bytes: the final byte of a nonempty key is
never consumed. -/
def djbTail (k : List Nat) (l d i : Nat) : Nat :=
  match l - i with
  | 1 => d
  | 2 => djbStep d (k.getD i 0)
  | 3 => djbStep (djbStep d (k.getD i 0)) (k.getD (i + 1) 0)
  | 4 => djbStep (djbStep (djbStep d (k.getD i 0)) (k.getD (i + 1) 0)) (k.getD (i + 2) 0)
  | _ => d

/-- `djb33(seed, k)` of sharded.go: seeded by `5381 + seed + len(k)`, the
guarded unrolled stride loop, the tail switch, and the final
`d ^ (d >> 16)` dispersion step. -/
def djb33 (seed : Nat) (k : List Nat) : Nat :=
  let l := k.length
  let d0 := (5381 + seed + l) % M32
  let r := if 4 ≤ l then djb33Loop k l d0 0 else (d0, 0)
  let d2 := djbTail k l r.1 r.2
  d2 ^^^ (d2 >>> 16)

/-- The reference hash as the spec words it: the same seed, "folding every
byte of the key", then the same finisher.  (Second definition, written from
the spec, for comparison with `djb33` above.) -/
def djb33SpecRef (seed : Nat) (k : List Nat) : Nat :=
  let d := k.foldl djbStep ((5381 + seed + k.length) % M32)
  d ^^^ (d >>> 16)

/-- Fold `c` bytes of `k` starting at position `i`. -/
def foldBytes (k : List Nat) (d i : Nat) : Nat → Nat
  | 0 => d
  | c + 1 => foldBytes k (djbStep d (k.getD i 0)) (i + 1) c

theorem foldBytes_succ (k : List Nat) (d i c : Nat) :
    foldBytes k d i (c + 1) = foldBytes k (djbStep d (k.getD i 0)) (i + 1) c := rfl

theorem foldBytes_eq_foldl (k : List Nat) :
    ∀ c i d, i + c ≤ k.length →
      foldBytes k d i c = ((k.drop i).take c).foldl djbStep d := by
  intro c
  induction c with
  | zero => intro i d hle; simp [foldBytes]
  | succ c ih =>
    intro i d hle
    have hi : i < k.length := by omega
    rw [foldBytes_succ, ih (i + 1) _ (by omega),
      List.drop_eq_getElem_cons hi, List.take_succ_cons, List.foldl_cons,
      List.getD_eq_getElem?_getD, List.getElem?_eq_getElem hi, Option.getD_some]

theorem djbTail_eq_foldBytes (k : List Nat) (l d i : Nat)
    (hil : i ≤ l) (hli : l - i ≤ 4) :
    djbTail k l d i = foldBytes k d i (l - 1 - i) := by
  unfold djbTail
  have h4 : l - i = 0 ∨ l - i = 1 ∨ l - i = 2 ∨ l - i = 3 ∨ l - i = 4 := by omega
  rcases h4 with h | h | h | h | h <;> rw [h]
  · have : l - 1 - i = 0 := by omega
    rw [this]; rfl
  · have : l - 1 - i = 0 := by omega
    rw [this]; rfl
  · have : l - 1 - i = 1 := by omega
    rw [this]; rfl
  · have : l - 1 - i = 2 := by omega
    rw [this]; rfl
  · have : l - 1 - i = 3 := by omega
    rw [this]; rfl

theorem foldBytes_add_four (k : List Nat) (d i x : Nat) :
    foldBytes k d i (x + 4)
      = foldBytes k
          (djbStep (djbStep (djbStep (djbStep d (k.getD i 0)) (k.getD (i + 1) 0))
            (k.getD (i + 2) 0)) (k.getD (i + 3) 0)) (i + 4) x := by
  show foldBytes k d i (x + 1 + 1 + 1 + 1) = _
  rw [foldBytes_succ, foldBytes_succ, foldBytes_succ, foldBytes_succ]

theorem djb33Loop_tail (k : List Nat) (l : Nat) :
    ∀ m i d, l - i ≤ m → i ≤ l →
      djbTail k l (djb33Loop k l d i).1 (djb33Loop k l d i).2
        = foldBytes k d i (l - 1 - i) := by
  intro m
  induction m with
  | zero =>
    intro i d hm hil
    rw [djb33Loop, if_neg (by omega)]
    exact djbTail_eq_foldBytes k l d i hil (by omega)
  | succ m ih =>
    intro i d hm hil
    by_cases hc : i < l - 4
    · rw [djb33Loop, if_pos hc, ih (i + 4) _ (by omega) (by omega),
        show l - 1 - i = (l - 1 - (i + 4)) + 4 from by omega, foldBytes_add_four]
    · rw [djb33Loop, if_neg hc]
      exact djbTail_eq_foldBytes k l d i hil (by omega)

theorem djb33_eq_dropLast_fold (seed : Nat) (k : List Nat) :
    djb33 seed k =
      (k.dropLast.foldl djbStep ((5381 + seed + k.length) % M32))
        ^^^ ((k.dropLast.foldl djbStep ((5381 + seed + k.length) % M32)) >>> 16) := by
  have hfold : foldBytes k ((5381 + seed + k.length) % M32) 0 (k.length - 1)
      = k.dropLast.foldl djbStep ((5381 + seed + k.length) % M32) := by
    rw [foldBytes_eq_foldl k (k.length - 1) 0 _ (by omega), List.drop_zero,
      ← List.dropLast_eq_take]
  rw [← hfold]
  unfold djb33
  dsimp only
  by_cases hl : 4 ≤ k.length
  · rw [if_pos hl, djb33Loop_tail k k.length k.length 0 _ (by omega) (by omega),
      Nat.sub_zero]
  · rw [if_neg hl]
    exact congrArg (fun d => d ^^^ (d >>> 16))
      (djbTail_eq_foldBytes k k.length _ 0 (by omega) (by omega))

end simplecache

namespace simplecache

variable {K V : Type} [DecidableEq K]

theorem tblInv_set (c : cache K V) (now : Int) (k : K) (x : V) (d : Int)
    (h : tblInv c) : tblInv (cache.set c now k x d) := by
  unfold cache.set
  cases hfind : mapFind c.indices k with
  | none =>
    unfold tblInv
    dsimp only
    rw [List.map_append, List.map_singleton]
    have := idxInv_append (k := k) h hfind
    rwa [List.length_map] at this
  | some idx =>
    unfold tblInv
    dsimp only
    rw [List.map_set]
    have hks : (c.items.map entry.key)[idx]? = some k := h.find_some hfind
    rw [set_of_getElem?_eq _ _ _ hks]
    exact h

theorem tblInv_Set (c : cache K V) (now : Int) (k : K) (x : V) (d : Int)
    (h : tblInv c) : tblInv (cache.Set c now k x d) :=
  tblInv_set c now k x d h

theorem tblInv_GetAndRenewal (c : cache K V) (now : Int) (k : K)
    (h : tblInv c) : tblInv (cache.GetAndRenewal c now k).1 := by
  cases hfind : mapFind c.indices k with
  | none =>
    unfold cache.GetAndRenewal
    rw [hfind]
    exact h
  | some idx =>
    cases hit : c.items[idx]? with
    | none =>
      unfold cache.GetAndRenewal
      rw [hfind]
      dsimp only
      rw [hit]
      exact h
    | some item =>
      unfold cache.GetAndRenewal
      rw [hfind]
      dsimp only
      rw [hit]
      unfold tblInv
      dsimp only
      rw [List.map_set]
      have hkey : (if item.Expiration > 0 ∧ item.Expiration - now ≤ Int.tdiv c.defaultExpiration 3
          then { item with Expiration := item.Expiration + Int.tdiv c.defaultExpiration 3 }
          else item).key = item.key := by
        split <;> rfl
      rw [hkey]
      have hks : (c.items.map entry.key)[idx]? = some item.key := by
        rw [List.getElem?_map, hit]
        rfl
      rw [set_of_getElem?_eq _ _ _ hks]
      exact h

theorem deleteCore_not_found (B : List (entry K V)) (ix : List (K × Nat))
    (ev : Bool) (k : K) (hfind : mapFind ix k = none) :
    cache.deleteCore B ix ev k = (B, ix, none, none) := by
  unfold cache.deleteCore
  rw [hfind]

/-- Swap-delete core specification: on a hit the backing keeps its physical
length, the logical prefix shrinks to `size - 1`, and the correspondence
invariant is preserved on the new prefix. -/
theorem deleteCore_found (B : List (entry K V)) (ix : List (K × Nat)) (ev : Bool)
    (k : K) (idx size : Nat) (hfind : mapFind ix k = some idx)
    (hsize : size ≤ B.length)
    (hinv : idxInv ((B.take size).map entry.key) ix) :
    ∃ B2 ix2 vv, cache.deleteCore B ix ev k = (B2, ix2, some (size - 1), vv)
      ∧ B2.length = B.length
      ∧ idxInv ((B2.take (size - 1)).map entry.key) ix2 := by
  have hkslen : ((B.take size).map entry.key).length = size := by
    rw [List.length_map, List.length_take]
    omega
  have hixlen : ix.length = size := hinv.2.1.trans hkslen
  have hks_idx : ((B.take size).map entry.key)[idx]? = some k := hinv.find_some hfind
  have hidx : idx < size := by
    have := (List.getElem?_eq_some_iff.mp hks_idx).1
    omega
  have hsz1 : 1 ≤ size := by omega
  have hn : size - 1 < size := by omega
  have hidxB : idx < B.length := by omega
  have hnB : size - 1 < B.length := by omega
  rcases List.getElem?_eq_some_iff.mpr ⟨hnB, rfl⟩ with hbn
  rcases List.getElem?_eq_some_iff.mpr ⟨hidxB, rfl⟩ with hbidx
  have h1 : (listSwap B idx (size - 1))[idx]? = some (B.get ⟨size - 1, hnB⟩) := by
    rw [getElem?_listSwap B idx (size - 1) idx hidxB hnB]
    by_cases he : idx = size - 1
    · rw [if_pos he, List.getElem?_eq_getElem hidxB]
      simp [he]
    · rw [if_neg he, if_pos rfl, List.getElem?_eq_getElem hnB]
      rfl
  have h2 : (listSwap B idx (size - 1))[size - 1]? = some (B.get ⟨idx, hidxB⟩) := by
    rw [getElem?_listSwap B idx (size - 1) (size - 1) hidxB hnB, if_pos rfl,
      List.getElem?_eq_getElem hidxB]
    rfl
  refine ⟨listSwap B idx (size - 1),
    mapErase (mapInsert ix (B.get ⟨size - 1, hnB⟩).key idx) k,
    if ev then some (B.get ⟨idx, hidxB⟩).value else none, ?_, ?_, ?_⟩
  · unfold cache.deleteCore
    rw [hfind]
    dsimp only
    rw [hixlen, h1, h2]
  · exact length_listSwap B idx (size - 1)
  · have hks_last : ((B.take size).map entry.key)[size - 1]? = some (B.get ⟨size - 1, hnB⟩).key := by
      rw [List.getElem?_map, List.getElem?_take_of_lt hn, List.getElem?_eq_getElem hnB]
      rfl
    have hmain := idxInv_delete hinv hfind (by omega) hks_last
    have heq : ((listSwap B idx (size - 1)).take (size - 1)).map entry.key
        = (listSwap ((B.take size).map entry.key) idx (size - 1)).take (size - 1) := by
      have ht : (listSwap B idx (size - 1)).take (size - 1)
          = (listSwap (B.take size) idx (size - 1)).take (size - 1) := by
        rw [← take_listSwap B idx (size - 1) size hidx hn hsize, List.take_take,
          Nat.min_eq_left (by omega)]
      rw [ht, List.map_take, map_listSwap, List.map_take]
    rw [heq]
    exact hmain

theorem tblInv_delete (c : cache K V) (k : K) (h : tblInv c) :
    tblInv (cache.delete c k).1 := by
  cases hfind : mapFind c.indices k with
  | none =>
    unfold cache.delete
    rw [deleteCore_not_found _ _ _ _ hfind]
    exact h
  | some idx =>
    have hinv : idxInv ((c.items.take c.items.length).map entry.key) c.indices := by
      rw [List.take_length]
      exact h
    rcases deleteCore_found c.items c.indices c.onEvicted k idx c.items.length
        hfind (Nat.le_refl _) hinv with ⟨B2, ix2, vv, heq, hlen, hinv2⟩
    unfold cache.delete
    rw [heq]
    exact hinv2

theorem tblInv_Delete (c : cache K V) (k : K) (h : tblInv c) :
    tblInv (cache.Delete c k).1 := by
  have hd := tblInv_delete c k h
  unfold cache.Delete
  rcases he : cache.delete c k with ⟨c2, v⟩
  rw [he] at hd
  cases v <;> exact hd

theorem foldl_preserves {σ α : Type} (P : σ → Prop) (step : σ → α → σ)
    (hstep : ∀ s a, P s → P (step s a)) :
    ∀ (l : List α) (s : σ), P s → P (l.foldl step s) := by
  intro l
  induction l with
  | nil => intro s hs; exact hs
  | cons a rest ih => intro s hs; exact ih _ (hstep s a hs)

/-- The state predicate carried through the `DeleteExpired` range loop:
the logical length bounds the backing and the correspondence invariant holds
on the logical prefix. -/
def sweepOk (st : List (entry K V) × Nat × List (K × Nat) × List (K × V)) : Prop :=
  st.2.1 ≤ st.1.length ∧ idxInv ((st.1.take st.2.1).map entry.key) st.2.2.1

theorem sweepStep_preserves (now : Int) (ev : Bool)
    (st : List (entry K V) × Nat × List (K × Nat) × List (K × V)) (i : Nat)
    (hP : sweepOk st) : sweepOk (cache.sweepStep now ev st i) := by
  obtain ⟨B, size, ix, acc⟩ := st
  obtain ⟨hsz, hinv⟩ := hP
  replace hsz : size ≤ B.length := hsz
  replace hinv : idxInv ((B.take size).map entry.key) ix := hinv
  unfold cache.sweepStep
  dsimp only
  cases hBi : B[i]? with
  | none => exact ⟨hsz, hinv⟩
  | some v =>
    dsimp only
    split
    · cases hfind : mapFind ix v.key with
      | none =>
        rw [deleteCore_not_found _ _ _ _ hfind]
        exact ⟨hsz, hinv⟩
      | some idx =>
        rcases deleteCore_found B ix ev v.key idx size hfind hsz hinv with
          ⟨B2, ix2, vv, heq, hlen, hinv2⟩
        rw [heq]
        refine ⟨?_, hinv2⟩
        show size - 1 ≤ B2.length
        omega
    · exact ⟨hsz, hinv⟩

theorem tblInv_DeleteExpired (c : cache K V) (now : Int) (h : tblInv c) :
    tblInv (cache.DeleteExpired c now).1 := by
  have hP : sweepOk (c.items, c.items.length, c.indices, ([] : List (K × V))) := by
    refine ⟨Nat.le_refl _, ?_⟩
    rw [List.take_length]
    exact h
  have hfin := foldl_preserves sweepOk (cache.sweepStep now c.onEvicted)
    (sweepStep_preserves now c.onEvicted) (List.range c.items.length) _ hP
  unfold cache.DeleteExpired
  dsimp only
  rcases he : (List.range c.items.length).foldl (cache.sweepStep now c.onEvicted)
      (c.items, c.items.length, c.indices, ([] : List (K × V))) with ⟨B, size, ix, acc⟩
  rw [he] at hfin
  exact hfin.2

theorem tblInv_Add (c : cache K V) (now : Int) (k : K) (x : V) (d : Int)
    (h : tblInv c) : tblInv (cache.Add c now k x d).1 := by
  unfold cache.Add
  split
  · exact h
  · exact tblInv_set c now k x d h

theorem tblInv_Purge (c : cache K V) (h : tblInv c) : tblInv (cache.Purge c) := by
  unfold cache.Purge tblInv
  exact idxInv_nil

theorem tblInv_newCache (initcap : Nat) (de : Int) : tblInv (newCache K V initcap de) :=
  idxInv_nil

end simplecache

namespace gocache

theorem heap_Less_lt {h : heap} {a b : Nat} (hl : h.Less a b = true) :
    a < h.entries.length ∧ b < h.entries.length := by
  unfold heap.Less at hl
  cases ha : h.entries[a]? with
  | none => rw [ha] at hl; cases hb : h.entries[b]? <;> rw [hb] at hl <;> cases hl
  | some ea =>
    cases hb : h.entries[b]? with
    | none => rw [ha, hb] at hl; cases hl
    | some eb =>
      exact ⟨(List.getElem?_eq_some_iff.mp ha).1, (List.getElem?_eq_some_iff.mp hb).1⟩

@[simp]
theorem heap_Swap_entries (h : heap) (i j : Nat) :
    (h.Swap i j).entries = listSwap h.entries i j := rfl

theorem heapInv_Swap (h : heap) (i j : Nat) (hi : i < h.entries.length)
    (hj : j < h.entries.length) (hinv : heapInv h) : heapInv (h.Swap i j) := by
  have hEi : (listSwap h.entries i j)[i]? = some (h.entries.get ⟨j, hj⟩) := by
    rw [getElem?_listSwap _ _ _ _ hi hj]
    by_cases he : i = j
    · rw [if_pos he, List.getElem?_eq_getElem hi]
      subst he
      rfl
    · rw [if_neg he, if_pos rfl, List.getElem?_eq_getElem hj]
      rfl
  have hEj : (listSwap h.entries i j)[j]? = some (h.entries.get ⟨i, hi⟩) := by
    rw [getElem?_listSwap _ _ _ _ hi hj, if_pos rfl, List.getElem?_eq_getElem hi]
    rfl
  have hEi2 : (Option.map hentry.key (listSwap h.entries i j)[i]?).getD ""
      = (h.entries.get ⟨j, hj⟩).key := by
    rw [hEi]
    rfl
  have hEj2 : (Option.map hentry.key (listSwap h.entries i j)[j]?).getD ""
      = (h.entries.get ⟨i, hi⟩).key := by
    rw [hEj]
    rfl
  have hki : (h.entries.map hentry.key)[i]? = some (h.entries.get ⟨i, hi⟩).key := by
    rw [List.getElem?_map, List.getElem?_eq_getElem hi]
    rfl
  have hkj : (h.entries.map hentry.key)[j]? = some (h.entries.get ⟨j, hj⟩).key := by
    rw [List.getElem?_map, List.getElem?_eq_getElem hj]
    rfl
  have target := idxInv_swap hinv hki hkj
  rw [← map_listSwap] at target
  show idxInv ((listSwap h.entries i j).map hentry.key)
    (mapInsert (mapInsert h.indices
        ((Option.map hentry.key (listSwap h.entries i j)[i]?).getD "") i)
      ((Option.map hentry.key (listSwap h.entries i j)[j]?).getD "") j)
  rw [hEi2, hEj2]
  exact target

theorem heap_up_spec : ∀ (j : Nat) (h : heap),
    ((heap.up h j).entries.length = h.entries.length) ∧
    (heapInv h → heapInv (heap.up h j)) := by
  intro j
  induction j using Nat.strong_induction_on with
  | _ j ih =>
    intro h
    unfold heap.up
    split
    · exact ⟨rfl, fun hv => hv⟩
    · rename_i hc
      have hne : (j - 1) / 2 ≠ j := (not_or.mp hc).1
      have hl : h.Less j ((j - 1) / 2) = true := by
        have := (not_or.mp hc).2
        simpa using this
      have hrange := heap_Less_lt hl
      have hlt : (j - 1) / 2 < j := by omega
      constructor
      · rw [(ih _ hlt _).1]
        simp [length_listSwap]
      · intro hv
        exact (ih _ hlt _).2 (heapInv_Swap h _ j hrange.2 hrange.1 hv)

theorem heap_downAux_spec : ∀ (m : Nat) (h : heap) (i n : Nat), n - i ≤ m →
    ((heap.downAux h i n).1.entries.length = h.entries.length) ∧
    (heapInv h → heapInv (heap.downAux h i n).1) := by
  intro m
  induction m with
  | zero =>
    intro h i n hm
    unfold heap.downAux
    rw [dif_pos (by omega)]
    exact ⟨rfl, fun hv => hv⟩
  | succ m ih =>
    intro h i n hm
    unfold heap.downAux
    by_cases hj : n ≤ 2 * i + 1
    · rw [dif_pos hj]
      exact ⟨rfl, fun hv => hv⟩
    · rw [dif_neg hj]
      dsimp only
      by_cases hj2 : 2 * i + 2 < n ∧ h.Less (2 * i + 2) (2 * i + 1) = true
      · rw [if_pos hj2]
        by_cases hless : h.Less (2 * i + 2) i = true
        · rw [if_neg (by simpa using hless)]
          have hrange := heap_Less_lt hless
          have hrec := ih (h.Swap i (2 * i + 2)) (2 * i + 2) n (by omega)
          constructor
          · rw [hrec.1]
            simp [length_listSwap]
          · intro hv
            exact hrec.2 (heapInv_Swap h i _ hrange.2 hrange.1 hv)
        · rw [if_pos (by simpa using hless)]
          exact ⟨rfl, fun hv => hv⟩
      · rw [if_neg hj2]
        by_cases hless : h.Less (2 * i + 1) i = true
        · rw [if_neg (by simpa using hless)]
          have hrange := heap_Less_lt hless
          have hrec := ih (h.Swap i (2 * i + 1)) (2 * i + 1) n (by omega)
          constructor
          · rw [hrec.1]
            simp [length_listSwap]
          · intro hv
            exact hrec.2 (heapInv_Swap h i _ hrange.2 hrange.1 hv)
        · rw [if_pos (by simpa using hless)]
          exact ⟨rfl, fun hv => hv⟩

theorem heapInv_Fix (h : heap) (i : Nat) (hinv : heapInv h) : heapInv (h.Fix i) := by
  unfold heap.Fix heap.down
  dsimp only
  have hs := heap_downAux_spec (h.entries.length - i) h i h.entries.length (by omega)
  split
  · exact hs.2 hinv
  · exact (heap_up_spec i _).2 (hs.2 hinv)

theorem heapInv_cheapPush (h : heap) (e : hentry)
    (hnew : mapFind h.indices e.key = none) (hinv : heapInv h) :
    heapInv (h.cheapPush e) := by
  unfold heap.cheapPush heap.PushRaw
  refine (heap_up_spec h.entries.length _).2 ?_
  unfold heapInv
  dsimp only
  rw [List.map_append, List.map_singleton]
  have := idxInv_append (k := e.key) hinv hnew
  rwa [List.length_map] at this

theorem heapInv_cheapPop (h : heap) (hinv : heapInv h) : heapInv (h.cheapPop).1 := by
  unfold heap.cheapPop
  cases hlen : h.entries.length with
  | zero => exact hinv
  | succ n =>
    have h0 : 0 < h.entries.length := by omega
    have hn : n < h.entries.length := by omega
    have hinv1 : heapInv (h.Swap 0 n) := heapInv_Swap h 0 n h0 hn hinv
    have hspec := heap_downAux_spec n (h.Swap 0 n) 0 n (by omega)
    have hinv2 := hspec.2 hinv1
    have hlen2 : (heap.downAux (h.Swap 0 n) 0 n).1.entries.length = h.entries.length := by
      rw [hspec.1]
      simp [length_listSwap]
    cases ho : (heap.downAux (h.Swap 0 n) 0 n).1.entries[n]? with
    | none =>
      show heapInv (match (heap.downAux (h.Swap 0 n) 0 n).1.entries[n]? with
        | some o => (({ entries := List.take n (heap.downAux (h.Swap 0 n) 0 n).1.entries,
                        indices := mapErase (heap.downAux (h.Swap 0 n) 0 n).1.indices o.key } : heap),
                     some o)
        | none => (h, none)).1
      rw [ho]
      exact hinv
    | some o =>
      show heapInv (match (heap.downAux (h.Swap 0 n) 0 n).1.entries[n]? with
        | some o => (({ entries := List.take n (heap.downAux (h.Swap 0 n) 0 n).1.entries,
                        indices := mapErase (heap.downAux (h.Swap 0 n) 0 n).1.indices o.key } : heap),
                     some o)
        | none => (h, none)).1
      rw [ho]
      show idxInv (((heap.downAux (h.Swap 0 n) 0 n).1.entries.take n).map hentry.key)
        (mapErase (heap.downAux (h.Swap 0 n) 0 n).1.indices o.key)
      rw [List.map_take]
      refine idxInv_removeLast hinv2 ?_ ?_
      · rw [List.length_map, hlen2, hlen]
        omega
      · rw [List.getElem?_map, ho]
        rfl

theorem heapInv_remove (h : heap) (key : String) (hinv : heapInv h) :
    heapInv (h.remove key) := by
  unfold heap.remove
  cases hfind : mapFind h.indices key with
  | none => exact hinv
  | some m =>
    have hks : (h.entries.map hentry.key)[m]? = some key := hinv.find_some hfind
    have hm : m < h.entries.length := by
      have := (List.getElem?_eq_some_iff.mp hks).1
      rw [List.length_map] at this
      exact this
    have hlen1 : 1 ≤ h.entries.length := by omega
    have hn : h.entries.length - 1 < h.entries.length := by omega
    have hEm : (listSwap h.entries m (h.entries.length - 1))[m]?
        = some (h.entries.get ⟨h.entries.length - 1, hn⟩) := by
      rw [getElem?_listSwap _ _ _ _ hm hn]
      by_cases he : m = h.entries.length - 1
      · rw [if_pos he, List.getElem?_eq_getElem hm]
        subst he
        rfl
      · rw [if_neg he, if_pos rfl, List.getElem?_eq_getElem hn]
        rfl
    have hEm2 : (Option.map hentry.key (listSwap h.entries m (h.entries.length - 1))[m]?).getD ""
        = (h.entries.get ⟨h.entries.length - 1, hn⟩).key := by
      rw [hEm]
      rfl
    have hklast : (h.entries.map hentry.key)[h.entries.length - 1]?
        = some (h.entries.get ⟨h.entries.length - 1, hn⟩).key := by
      rw [List.getElem?_map, List.getElem?_eq_getElem hn]
      rfl
    have hmain := idxInv_delete hinv hfind (by rw [List.length_map]) hklast
    have hinv2 : heapInv
        { entries := (listSwap h.entries m (h.entries.length - 1)).take (h.entries.length - 1),
          indices := mapErase (mapInsert h.indices
            (h.entries.get ⟨h.entries.length - 1, hn⟩).key m) key } := by
      unfold heapInv
      show idxInv (((listSwap h.entries m (h.entries.length - 1)).take (h.entries.length - 1)).map
        hentry.key) (mapErase (mapInsert h.indices
          (h.entries.get ⟨h.entries.length - 1, hn⟩).key m) key)
      rw [List.map_take, map_listSwap]
      exact hmain
    show heapInv (if m ≠ h.entries.length - 1 then
        heap.Fix { entries := (listSwap h.entries m (h.entries.length - 1)).take (h.entries.length - 1),
                   indices := mapErase (mapInsert h.indices
                     ((Option.map hentry.key (listSwap h.entries m (h.entries.length - 1))[m]?).getD "") m) key } m
      else
        { entries := (listSwap h.entries m (h.entries.length - 1)).take (h.entries.length - 1),
          indices := mapErase (mapInsert h.indices
            ((Option.map hentry.key (listSwap h.entries m (h.entries.length - 1))[m]?).getD "") m) key })
    rw [hEm2]
    split
    · exact heapInv_Fix _ m hinv2
    · exact hinv2

theorem heapInv_update (h : heap) (key : String) (hinv : heapInv h) :
    heapInv (h.update key) :=
  heapInv_Fix h _ hinv

theorem heapInv_GCacheAdd (h : heap) (now maxLifeTime : Int) (key : String)
    (x : Int) (hnew : mapFind h.indices key = none) (hinv : heapInv h) :
    heapInv (GCacheAdd h now maxLifeTime key x) :=
  heapInv_cheapPush h _ hnew hinv

theorem heapInv_gcTick : ∀ (fuel : Nat) (h : heap) (now : Int),
    heapInv h → heapInv (gcTick fuel h now) := by
  intro fuel
  induction fuel with
  | zero => intro h now hv; exact hv
  | succ fuel ih =>
    intro h now hv
    unfold gcTick
    cases h.Top with
    | none => exact hv
    | some top =>
      dsimp only
      split
      · exact hv
      · exact ih _ now (heapInv_remove h top.key hv)

end gocache

open simplecache gocache

/-- Concrete table for C1: two entries, both already expired at `now = 2`. -/
def c1cache : cache String Int :=
  { defaultExpiration := -1,
    items := [⟨"a", 1, 1⟩, ⟨"b", 2, 1⟩],
    indices := [("a", 0), ("b", 1)],
    onEvicted := false }

/-- Claim C1 (code bug): `DeleteExpired` ranges over the original slice header
while swap-deleting in the shared backing array.  Deleting `"a"` swaps the
expired `"b"` into position 0 and the loop's next read sees the stale copy of
`"a"` at position 1, so `"b"` survives the sweep even though it satisfies
`Expiration > 0 && now > Expiration` — contradicting the claim (and the
function's own doc comment "Delete all expired items from the cache"). -/
theorem c1_deleteExpired_leaves_expired_entry :
    tblInv c1cache ∧
    (cache.DeleteExpired c1cache 2).1.items = [⟨"b", 2, 1⟩] ∧
    (⟨"b", 2, 1⟩ : entry String Int).ExpiredAt 2 := by
  decide

/-- Claim C2: `Get` is not-found exactly on absent or logically expired keys;
on a present, unexpired key it returns the stored value.  Conjunct 1: absent
key.  Conjunct 2: a present index always points at a stored entry (under the
invariant).  Conjunct 3: expired entries are invisible even before a sweep;
otherwise the stored value is returned with `found = true`. -/
theorem c2_get_spec (K V : Type) [DecidableEq K] (c : cache K V) (now : Int)
    (k : K) (hinv : tblInv c) :
    (mapFind c.indices k = none → cache.Get c now k = (none, false)) ∧
    (∀ idx, mapFind c.indices k = some idx → ∃ e, c.items[idx]? = some e) ∧
    (∀ idx e, mapFind c.indices k = some idx → c.items[idx]? = some e →
      ((e.Expiration > 0 ∧ now > e.Expiration) → cache.Get c now k = (none, false)) ∧
      (¬(e.Expiration > 0 ∧ now > e.Expiration) →
        cache.Get c now k = (some e.value, true))) := by
  refine ⟨?_, ?_, ?_⟩
  · intro hfind
    unfold cache.Get
    rw [hfind]
  · intro idx hfind
    have hks := hinv.find_some hfind
    have hlt := (List.getElem?_eq_some_iff.mp hks).1
    rw [List.length_map] at hlt
    exact ⟨c.items.get ⟨idx, hlt⟩, List.getElem?_eq_getElem hlt⟩
  · intro idx e hfind hit
    constructor
    · intro hexp
      unfold cache.Get
      rw [hfind]
      dsimp only
      rw [hit]
      dsimp only
      rw [if_pos hexp]
    · intro hexp
      unfold cache.Get
      rw [hfind]
      dsimp only
      rw [hit]
      dsimp only
      rw [if_neg hexp]

/-- Concrete table for the C2 witness: one entry expiring at 10. -/
def c2cache : cache String Int :=
  { defaultExpiration := -1,
    items := [⟨"a", 5, 10⟩],
    indices := [("a", 0)],
    onEvicted := false }

/-- Witness for C2 at a concrete state: at `now = 20` the unswept expired
entry is invisible; at `now = 3` it is returned; an absent key is not found. -/
theorem c2_get_spec_witness :
    cache.Get c2cache 20 "a" = (none, false) ∧
    cache.Get c2cache 3 "a" = (some 5, true) ∧
    cache.Get c2cache 3 "zz" = (none, false) := by
  refine ⟨?_, ?_, ?_⟩
  · exact ((c2_get_spec String Int c2cache 20 "a" (by decide)).2.2 0 ⟨"a", 5, 10⟩
      (by rfl) (by rfl)).1 (by decide)
  · exact ((c2_get_spec String Int c2cache 3 "a" (by decide)).2.2 0 ⟨"a", 5, 10⟩
      (by rfl) (by rfl)).2 (by decide)
  · exact (c2_get_spec String Int c2cache 3 "zz" (by decide)).1 (by rfl)

/-- Claim C3: `Add` returns the `AlreadyExists` error and mutates nothing
exactly when a live (unexpired) entry is present; on an absent key, or on a
logically expired but not yet swept entry, it succeeds and a subsequent `Get`
at the same instant returns the new value. -/
theorem c3_add_spec (K V : Type) [DecidableEq K] (c : cache K V) (now : Int)
    (k : K) (x : V) (d : Int) :
    (∀ idx e, mapFind c.indices k = some idx → c.items[idx]? = some e →
      ¬ e.ExpiredAt now → cache.Add c now k x d = (c, true)) ∧
    (mapFind c.indices k = none →
      (cache.Add c now k x d).2 = false ∧
      cache.Get (cache.Add c now k x d).1 now k = (some x, true)) ∧
    (∀ idx e, mapFind c.indices k = some idx → c.items[idx]? = some e →
      e.ExpiredAt now →
      (cache.Add c now k x d).2 = false ∧
      cache.Get (cache.Add c now k x d).1 now k = (some x, true)) := by
  have hno : ¬((if (if d = DefaultExpiration then c.defaultExpiration else d) > 0 then
        now + (if d = DefaultExpiration then c.defaultExpiration else d) else 0) > 0 ∧
      now > (if (if d = DefaultExpiration then c.defaultExpiration else d) > 0 then
        now + (if d = DefaultExpiration then c.defaultExpiration else d) else 0)) := by
    split
    · rename_i hd
      intro hcon
      omega
    · intro hcon
      omega
  refine ⟨?_, ?_, ?_⟩
  · intro idx e hfind hit hlive
    have hget : cache.get c now k = (some e.value, true) := by
      unfold cache.get
      rw [hfind]
      dsimp only
      rw [hit]
      dsimp only
      exact if_neg hlive
    unfold cache.Add
    rw [hget]
    rfl
  · intro hfind
    have hget : cache.get c now k = (none, false) := by
      unfold cache.get
      rw [hfind]
    have hset : cache.set c now k x d =
        { c with
          items := c.items ++ [⟨k, x,
            if (if d = DefaultExpiration then c.defaultExpiration else d) > 0 then
              now + (if d = DefaultExpiration then c.defaultExpiration else d) else 0⟩],
          indices := mapInsert c.indices k c.items.length } := by
      unfold cache.set
      rw [hfind]
    have hadd : cache.Add c now k x d = (cache.set c now k x d, false) := by
      unfold cache.Add
      rw [hget]
      rfl
    refine ⟨by rw [hadd], ?_⟩
    rw [hadd, hset]
    unfold cache.Get
    dsimp only
    rw [mapFind_mapInsert_self]
    dsimp only
    rw [List.getElem?_concat_length]
    dsimp only
    rw [if_neg hno]
  · intro idx e hfind hit hexp
    have hget : cache.get c now k = (none, false) := by
      unfold cache.get
      rw [hfind]
      dsimp only
      rw [hit]
      dsimp only
      exact if_pos hexp
    have hidx : idx < c.items.length := (List.getElem?_eq_some_iff.mp hit).1
    have hset : cache.set c now k x d =
        { c with
          items := c.items.set idx ⟨k, x,
            if (if d = DefaultExpiration then c.defaultExpiration else d) > 0 then
              now + (if d = DefaultExpiration then c.defaultExpiration else d) else 0⟩ } := by
      unfold cache.set
      rw [hfind]
    have hadd : cache.Add c now k x d = (cache.set c now k x d, false) := by
      unfold cache.Add
      rw [hget]
      rfl
    refine ⟨by rw [hadd], ?_⟩
    rw [hadd, hset]
    unfold cache.Get
    dsimp only
    rw [hfind]
    dsimp only
    rw [List.getElem?_set_self hidx]
    dsimp only
    rw [if_neg hno]

/-- Concrete table for the C3 witness: `"a"` expired at `now = 20`, `"c"` live. -/
def c3cache : cache String Int :=
  { defaultExpiration := -1,
    items := [⟨"a", 5, 10⟩, ⟨"c", 7, 0⟩],
    indices := [("a", 0), ("c", 1)],
    onEvicted := false }

/-- Witness for C3 at a concrete state: adding over the live `"c"` errors and
mutates nothing; adding an absent key and adding over the expired-but-unswept
`"a"` both succeed, and the subsequent `Get` sees the new value. -/
theorem c3_add_spec_witness :
    cache.Add c3cache 20 "c" 9 5 = (c3cache, true) ∧
    ((cache.Add c3cache 20 "zz" 9 5).2 = false ∧
      cache.Get (cache.Add c3cache 20 "zz" 9 5).1 20 "zz" = (some 9, true)) ∧
    ((cache.Add c3cache 20 "a" 9 5).2 = false ∧
      cache.Get (cache.Add c3cache 20 "a" 9 5).1 20 "a" = (some 9, true)) := by
  refine ⟨?_, ?_, ?_⟩
  · exact (c3_add_spec String Int c3cache 20 "c" 9 5).1 1 ⟨"c", 7, 0⟩
      (by rfl) (by rfl) (by decide)
  · exact (c3_add_spec String Int c3cache 20 "zz" 9 5).2.1 (by rfl)
  · exact (c3_add_spec String Int c3cache 20 "a" 9 5).2.2 0 ⟨"a", 5, 10⟩
      (by rfl) (by rfl) (by decide)

/-- Concrete heap for C4: one entry under key `"a"`, invariant holds. -/
def c4hp : heap := { entries := [⟨100, 0, "a"⟩], indices := [("a", 0)] }

/-- Claim C4 (counterexample): `GCache.Add` pushes a new entry without any
existing-key check; pushing a key already present (here `"a"`) leaves two
entries with the same key while the index can point at only one of them, so
the key↔position correspondence invariant is broken. -/
theorem c4_gcacheAdd_duplicate_breaks_invariant :
    heapInv c4hp ∧ ¬ heapInv (GCacheAdd c4hp 0 50 "a" 7) := by
  have heval : GCacheAdd c4hp 0 50 "a" 7
      = { entries := [⟨100, 0, "a"⟩, ⟨50, 7, "a"⟩], indices := [("a", 1)] } := by
    unfold GCacheAdd heap.cheapPush heap.PushRaw heap.up
    rw [dif_pos (by decide)]
    decide
  constructor
  · decide
  · rw [heval]
    decide

/-- Claim C4 (amended): every mutating operation of the Indexed Entry Table
preserves the key↔position correspondence invariant, and every operation of
the Priority Expiry Structure preserves it provided a pushed key is not
already present (the proviso the counterexample forces on `GCache.Add`). -/
theorem c4_operations_preserve_index_invariant
    (K V : Type) [DecidableEq K] (c : cache K V) (now : Int) (k : K) (x : V)
    (d : Int) (h : heap) (now2 mlt : Int) (key : String) (y : Int) :
    (tblInv c → tblInv (cache.Set c now k x d)) ∧
    (tblInv c → tblInv (cache.Add c now k x d).1) ∧
    (tblInv c → tblInv (cache.Delete c k).1) ∧
    (tblInv c → tblInv (cache.DeleteExpired c now).1) ∧
    (tblInv c → tblInv (cache.Purge c)) ∧
    (tblInv c → tblInv (cache.GetAndRenewal c now k).1) ∧
    (heapInv h → mapFind h.indices key = none →
      heapInv (GCacheAdd h now2 mlt key y)) ∧
    (heapInv h → heapInv (h.cheapPop).1) ∧
    (heapInv h → heapInv (h.remove key)) ∧
    (heapInv h → heapInv (h.update key)) ∧
    (∀ fuel, heapInv h → heapInv (gcTick fuel h now2)) :=
  ⟨tblInv_Set c now k x d,
   tblInv_Add c now k x d,
   tblInv_Delete c k,
   tblInv_DeleteExpired c now,
   tblInv_Purge c,
   tblInv_GetAndRenewal c now k,
   fun hv hnew => heapInv_GCacheAdd h now2 mlt key y hnew hv,
   heapInv_cheapPop h,
   heapInv_remove h key,
   heapInv_update h key,
   fun fuel hv => heapInv_gcTick fuel h now2 hv⟩

/-- Concrete table for the C4 witness. -/
def c4tab : cache String Int :=
  { defaultExpiration := -1,
    items := [⟨"a", 1, 1⟩, ⟨"b", 2, 0⟩],
    indices := [("a", 0), ("b", 1)],
    onEvicted := true }

/-- Witness for the amended C4 at concrete states, one conclusion per
operation, each hypothesis discharged by `decide`. -/
theorem c4_operations_preserve_index_invariant_witness :
    tblInv (cache.Set c4tab 2 "zz" 9 5) ∧
    tblInv (cache.Add c4tab 2 "a" 9 5).1 ∧
    tblInv (cache.Delete c4tab "a").1 ∧
    tblInv (cache.DeleteExpired c4tab 2).1 ∧
    tblInv (cache.Purge c4tab) ∧
    tblInv (cache.GetAndRenewal c4tab 2 "b").1 ∧
    heapInv (GCacheAdd c4hp 0 50 "b" 7) ∧
    heapInv (c4hp.cheapPop).1 ∧
    heapInv (c4hp.remove "a") ∧
    heapInv (c4hp.update "a") ∧
    heapInv (gcTick 1 c4hp 0) :=
  ⟨(c4_operations_preserve_index_invariant String Int c4tab 2 "zz" 9 5 c4hp 0 50 "b" 7).1
      (by decide),
   (c4_operations_preserve_index_invariant String Int c4tab 2 "a" 9 5 c4hp 0 50 "b" 7).2.1
      (by decide),
   (c4_operations_preserve_index_invariant String Int c4tab 2 "a" 9 5 c4hp 0 50 "b" 7).2.2.1
      (by decide),
   (c4_operations_preserve_index_invariant String Int c4tab 2 "a" 9 5 c4hp 0 50 "b" 7).2.2.2.1
      (by decide),
   (c4_operations_preserve_index_invariant String Int c4tab 2 "a" 9 5 c4hp 0 50 "b" 7).2.2.2.2.1
      (by decide),
   (c4_operations_preserve_index_invariant String Int c4tab 2 "b" 9 5 c4hp 0 50 "b" 7).2.2.2.2.2.1
      (by decide),
   (c4_operations_preserve_index_invariant String Int c4tab 2 "b" 9 5 c4hp 0 50 "b" 7).2.2.2.2.2.2.1
      (by decide) (by decide),
   (c4_operations_preserve_index_invariant String Int c4tab 2 "b" 9 5 c4hp 0 50 "b" 7).2.2.2.2.2.2.2.1
      (by decide),
   (c4_operations_preserve_index_invariant String Int c4tab 2 "b" 9 5 c4hp 0 50 "a" 7).2.2.2.2.2.2.2.2.1
      (by decide),
   (c4_operations_preserve_index_invariant String Int c4tab 2 "b" 9 5 c4hp 0 50 "a" 7).2.2.2.2.2.2.2.2.2.1
      (by decide),
   (c4_operations_preserve_index_invariant String Int c4tab 2 "b" 9 5 c4hp 0 50 "a" 7).2.2.2.2.2.2.2.2.2.2 1
      (by decide)⟩

/-- Claim C5 (counterexample): the shipped `djb33` does not equal the spec's
reference fold-every-byte definition — already on the one-byte key `[97]`,
where the tail switch's `case 1` folds nothing. -/
theorem c5_djb33_differs_from_spec_fold :
    djb33 0 [97] ≠ djb33SpecRef 0 [97] := by
  decide

/-- Claim C5 (amended): `djb33` equals the spec's reference fold applied to
every byte EXCEPT the last byte of a nonempty key (the tail switch's `case 1`
folds nothing and `case n` folds `n - 1` bytes), with the accumulator still
seeded by the full key length and finished with `d ^ (d >> 16)`; as a pure
function of `seed` and the key bytes it is deterministic. -/
theorem c5_djb33_folds_all_but_last_byte (seed : Nat) (k : List Nat) :
    djb33 seed k =
      (k.dropLast.foldl djbStep ((5381 + seed + k.length) % M32))
        ^^^ ((k.dropLast.foldl djbStep ((5381 + seed + k.length) % M32)) >>> 16) :=
  djb33_eq_dropLast_fold seed k

/-- Concrete heap for C6: a single entry under key `"b"`. -/
def c6hp : heap := { entries := [⟨10, 0, "b"⟩], indices := [("b", 0)] }

/-- Claim C6 (code bug): `heap.get` computes `entries[indices[key]]`; an
absent key reads the map's zero value `0`, so on the empty heap the access is
out of bounds (a Go panic, modelled as `none`), and on a non-empty heap it
returns whatever entry sits at position 0 — here `"b"`'s entry for the absent
key `"a"` — instead of a defined not-found result. -/
theorem c6_heapGet_absent_key_misbehaves :
    heap.get { entries := [], indices := [] } "a" = none ∧
    heap.get c6hp "a" = some ⟨10, 0, "b"⟩ := by
  decide

/-- Concrete items for C7: `"a"` never expires, `"b"` expired at `now = 5`. -/
def c7items : List (entry String Int) := [⟨"a", 1, 0⟩, ⟨"b", 2, 1⟩]

/-- The same items wrapped in a generic-variant cache state. -/
def c7cache : cache String Int :=
  { defaultExpiration := -1,
    items := c7items,
    indices := [("a", 0), ("b", 1)],
    onEvicted := false }

/-- Claim C7 (code bug): the generic cache.go `Keys` returns the keys of the
live entries as the claim states, but the untyped ttl.go variant ranges over
the items SLICE with `for k, v := range c.items` — `k` is the position — and
appends `k`, returning the positions `[0]` of the live entries instead of
their keys `["a"]`. -/
theorem c7_ttl_keys_returns_indices :
    cache.Keys c7cache 5 = ["a"] ∧
    ttlKeys c7items 5 = [0] := by
  decide

/-- Concrete heap for C8: expiries 10/1/9; a valid heap for `Less`
(root expires latest) whose LAST slot holds the entry expiring at 9. -/
def c8hp : heap :=
  { entries := [⟨10, 0, "x"⟩, ⟨1, 0, "y"⟩, ⟨9, 0, "z"⟩],
    indices := [("x", 0), ("y", 1), ("z", 2)] }

/-- Claim C8 (code bug): one gc pass peeks `top()` — the last array slot —
while `Less` orders the ROOT by latest expiry, so the peeked entry is not the
earliest-expiring one.  At `now = 5` the pass sees `"z"` (expires 9, not yet
expired) and stops immediately, leaving `"y"` (expired at 1) in the heap, so
expired entries survive the pass. -/
theorem c8_gc_pass_leaves_expired_entry :
    heapInv c8hp ∧
    heap.Less c8hp 0 1 = true ∧ heap.Less c8hp 0 2 = true ∧
    gcTick 3 c8hp 5 = c8hp ∧
    (∃ e ∈ c8hp.entries, 0 < e.expired ∧ e.expired ≤ 5) := by
  decide

/-- Model of `GCache` of the gocache package (cache.go): the heap plus the two
configured durations.  `gcStarted` records whether the constructor spawned the
background `gc` goroutine (`sync.RWMutex` carries no sequential state and is
omitted). -/
structure GCache where
  h : heap
  recycleInterval : Int
  maxLifeTime : Int
  gcStarted : Bool
deriving DecidableEq

/-- Model of `New(interval, maxLifeTime)` of the gocache package: builds the
empty heap and UNCONDITIONALLY runs `go o.gc()` — unlike the simplecache
constructors there is no `interval > 0` guard, so the background sweep task is
started for every interval, non-positive ones included. -/
def GCacheNew (interval maxLifeTime : Int) : GCache :=
  { h := { entries := [], indices := [] },
    recycleInterval := interval,
    maxLifeTime := maxLifeTime,
    gcStarted := true }

/-- Model of `time.NewTicker(d)`, the first step of the spawned `gc` goroutine:
the standard library contract documents a panic for a non-positive duration,
modelled as `none`; `some d` is a live ticker of period `d`. -/
def newTicker (d : Int) : Option Int :=
  if d ≤ 0 then none else some d

/-- Claim C9 (counterexample): the claim ranges over every construction with
`sweepInterval <= 0`, but the gocache `New` spawns the background `gc`
goroutine unconditionally, and that goroutine's very first step,
`time.NewTicker(recycleInterval)`, faults for the non-positive interval 0 —
so on this scope a background sweep task does run and construction does not
proceed without fault. -/
theorem c9_gcache_new_starts_gc_and_ticker_faults :
    (GCacheNew 0 100).gcStarted = true ∧
    newTicker (GCacheNew 0 100).recycleInterval = none := by
  decide

/-- Claim C9 (amended): for the simplecache constructors
(`New` / `newCacheWithJanitor`), constructing with `sweepInterval <= 0`
succeeds, starts no background sweep goroutine, and expiry is purely lazy: a
`Set` entry whose TTL has elapsed is invisible to `Get` while still physically
stored (`Len = 1`), until a manual `DeleteExpired` removes it.  `0 < now`
reflects a `UnixNano` clock reading.  (The gocache `GCache.New` is excluded:
see the counterexample.) -/
theorem c9_nonpositive_interval_lazy (K V : Type) [DecidableEq K]
    (initcap : Nat) (de ci : Int) (hci : ci ≤ 0) :
    (newCacheWithJanitor K V initcap de ci).janitorRunning = false ∧
    tblInv (newCacheWithJanitor K V initcap de ci).inner ∧
    (∀ (now t : Int) (k : K) (x : V) (d : Int), 0 < now → 0 < d → now + d < t →
      cache.Get (cache.Set (newCacheWithJanitor K V initcap de ci).inner now k x d) t k
        = (none, false) ∧
      cache.Len (cache.Set (newCacheWithJanitor K V initcap de ci).inner now k x d) = 1 ∧
      (cache.DeleteExpired
        (cache.Set (newCacheWithJanitor K V initcap de ci).inner now k x d) t).1.items
        = []) := by
  refine ⟨decide_eq_false (by omega), tblInv_newCache initcap de, ?_⟩
  intro now t k x d hnow hd ht
  have hset : cache.Set (newCacheWithJanitor K V initcap de ci).inner now k x d
      = { defaultExpiration := if de = 0 then -1 else de,
          items := [⟨k, x, now + d⟩],
          indices := [(k, 0)],
          onEvicted := false } := by
    unfold newCacheWithJanitor newCache cache.Set cache.set
    dsimp only
    rw [if_neg (show ¬ d = DefaultExpiration by unfold DefaultExpiration; omega), if_pos hd]
    rfl
  have hfindk : mapFind [(k, (0 : Nat))] k = some 0 := by
    rw [mapFind_cons, if_pos rfl]
  refine ⟨?_, ?_, ?_⟩
  · rw [hset]
    unfold cache.Get
    dsimp only
    rw [hfindk]
    dsimp only
    rw [show ([⟨k, x, now + d⟩] : List (entry K V))[0]? = some ⟨k, x, now + d⟩ from rfl]
    dsimp only
    have hcond : (⟨k, x, now + d⟩ : entry K V).Expiration > 0 ∧
        t > (⟨k, x, now + d⟩ : entry K V).Expiration := by
      show now + d > 0 ∧ t > now + d
      omega
    exact if_pos hcond
  · rw [hset]
    rfl
  · rw [hset]
    have hcore : cache.deleteCore [(⟨k, x, now + d⟩ : entry K V)] [(k, 0)] false k
        = ([⟨k, x, now + d⟩], [], some 0, none) := by
      unfold cache.deleteCore
      rw [hfindk]
      dsimp only
      rw [show listSwap [(⟨k, x, now + d⟩ : entry K V)] 0 (([(k, (0 : Nat))] : List (K × Nat)).length - 1) = [⟨k, x, now + d⟩] from listSwap_self _ _]
      rw [show ([⟨k, x, now + d⟩] : List (entry K V))[0]? = some ⟨k, x, now + d⟩ from rfl,
        show ([⟨k, x, now + d⟩] : List (entry K V))[([(k, (0 : Nat))] : List (K × Nat)).length - 1]?
          = some ⟨k, x, now + d⟩ from rfl]
      dsimp only
      rw [show mapInsert [(k, (0 : Nat))] (entry.key (⟨k, x, now + d⟩ : entry K V)) 0 = [(k, 0)] from by rw [mapInsert]; dsimp only; rw [if_pos rfl],
        show mapErase [(k, (0 : Nat))] k = [] from by rw [mapErase]; dsimp only; rw [if_pos rfl]]
      rfl
    unfold cache.DeleteExpired
    dsimp only
    rw [show List.range ([(⟨k, x, now + d⟩ : entry K V)] : List (entry K V)).length = [0] from rfl]
    rw [List.foldl_cons, List.foldl_nil]
    unfold cache.sweepStep
    dsimp only
    rw [show ([⟨k, x, now + d⟩] : List (entry K V))[0]? = some ⟨k, x, now + d⟩ from rfl]
    dsimp only
    have hcond : (⟨k, x, now + d⟩ : entry K V).Expiration > 0 ∧
        t > (⟨k, x, now + d⟩ : entry K V).Expiration := by
      show now + d > 0 ∧ t > now + d
      omega
    rw [if_pos hcond, hcore]
    rfl

/-- Witness for C9 at concrete arguments. -/
theorem c9_nonpositive_interval_lazy_witness :
    (newCacheWithJanitor String Int 0 100 0).janitorRunning = false ∧
    cache.Get (cache.Set (newCacheWithJanitor String Int 0 100 0).inner 1 "a" 7 5) 10 "a"
      = (none, false) ∧
    cache.Len (cache.Set (newCacheWithJanitor String Int 0 100 0).inner 1 "a" 7 5) = 1 ∧
    (cache.DeleteExpired
      (cache.Set (newCacheWithJanitor String Int 0 100 0).inner 1 "a" 7 5) 10).1.items = [] := by
  have h := c9_nonpositive_interval_lazy String Int 0 100 0 (by omega)
  have h2 := h.2.2 1 10 "a" 7 5 (by omega) (by omega) (by omega)
  exact ⟨h.1, h2.1, h2.2.1, h2.2.2⟩

/-- Claim C10: `GetAndRenewal` on a physically present key returns the stored
value with `ok = true` even when the entry is logically expired (where `Get`
reports not-found), and extends `Expiration` by exactly
`defaultExpiration / 3` exactly when `Expiration > 0` and
`Expiration - now <= defaultExpiration / 3` — a condition that also covers
entries already past their expiry; otherwise the state is unchanged. -/
theorem c10_getAndRenewal_spec (K V : Type) [DecidableEq K] (c : cache K V)
    (now : Int) (k : K) (idx : Nat) (e : entry K V)
    (hfind : mapFind c.indices k = some idx) (hit : c.items[idx]? = some e) :
    (cache.GetAndRenewal c now k).2.2 = true ∧
    (cache.GetAndRenewal c now k).2.1 = some e.value ∧
    ((e.Expiration > 0 ∧ now > e.Expiration) → cache.Get c now k = (none, false)) ∧
    ((e.Expiration > 0 ∧ e.Expiration - now ≤ Int.tdiv c.defaultExpiration 3) →
      ((cache.GetAndRenewal c now k).1.items[idx]?).map entry.Expiration
        = some (e.Expiration + Int.tdiv c.defaultExpiration 3)) ∧
    (¬(e.Expiration > 0 ∧ e.Expiration - now ≤ Int.tdiv c.defaultExpiration 3) →
      (cache.GetAndRenewal c now k).1 = c) := by
  have hidx : idx < c.items.length := (List.getElem?_eq_some_iff.mp hit).1
  have hren : cache.GetAndRenewal c now k =
      (({ c with items := c.items.set idx
                    (if e.Expiration > 0 ∧ e.Expiration - now ≤ Int.tdiv c.defaultExpiration 3 then
                      { e with Expiration := e.Expiration + Int.tdiv c.defaultExpiration 3 }
                    else e) } : cache K V),
        some (if e.Expiration > 0 ∧ e.Expiration - now ≤ Int.tdiv c.defaultExpiration 3 then
            { e with Expiration := e.Expiration + Int.tdiv c.defaultExpiration 3 }
          else e).value,
        true) := by
    unfold cache.GetAndRenewal
    rw [hfind]
    dsimp only
    rw [hit]
  refine ⟨by rw [hren], ?_, ?_, ?_, ?_⟩
  · rw [hren]
    dsimp only
    split <;> rfl
  · intro hexp
    unfold cache.Get
    rw [hfind]
    dsimp only
    rw [hit]
    dsimp only
    exact if_pos hexp
  · intro hcond
    rw [hren]
    dsimp only
    rw [if_pos hcond, List.getElem?_set_self hidx]
    rfl
  · intro hcond
    rw [hren]
    dsimp only
    rw [if_neg hcond, set_of_getElem?_eq _ _ _ hit]

/-- Concrete table for the C10 witness: default TTL 9 (so the renewal slack is
3); `"a"` expired at `now = 20`, `"b"` far from expiring. -/
def c10cache : cache String Int :=
  { defaultExpiration := 9,
    items := [⟨"a", 5, 10⟩, ⟨"b", 7, 100⟩],
    indices := [("a", 0), ("b", 1)],
    onEvicted := false }

/-- Witness for C10 at a concrete state: the expired `"a"` is invisible to
`Get` yet `GetAndRenewal` returns its value with `ok = true` and bumps its
expiry 10 → 13; the far-from-expiry `"b"` is returned unchanged. -/
theorem c10_getAndRenewal_spec_witness :
    (cache.GetAndRenewal c10cache 20 "a").2.2 = true ∧
    (cache.GetAndRenewal c10cache 20 "a").2.1 = some 5 ∧
    cache.Get c10cache 20 "a" = (none, false) ∧
    ((cache.GetAndRenewal c10cache 20 "a").1.items[0]?).map entry.Expiration = some 13 ∧
    (cache.GetAndRenewal c10cache 20 "b").1 = c10cache := by
  have ha := c10_getAndRenewal_spec String Int c10cache 20 "a" 0 ⟨"a", 5, 10⟩
    (by rfl) (by rfl)
  have hb := c10_getAndRenewal_spec String Int c10cache 20 "b" 1 ⟨"b", 7, 100⟩
    (by rfl) (by rfl)
  exact ⟨ha.1, ha.2.1, ha.2.2.1 (by decide), ha.2.2.2.1 (by decide),
    hb.2.2.2.2 (by decide)⟩
